import Mathlib

/-!
Verification development for the vero rendering core.

This file gives a shallow embedding, in Lean 4, of the parts of the
repository that the specification's claims are about:

* the ANSI-aware text metrics of src/src/utils/text.ts
  (stripAnsi, getActiveAnsiAt, sliceWithAnsi);
* the ANSI style engine of src/src/formatting/ansi.ts and the color
  palettes of the colors/themes modules;
* the recursive value formatter (the format function of the
  object-formatter module);
* the text wrapper and the table/card layout engine of
  src/src/formatting/layout.ts (wrapText, createCard, createTable).

Modelling conventions, stated once here:

* JS strings are modelled as Lean String / List Char.  All characters
  relevant to the claims are ASCII or single BMP code points, for which
  JS .length (UTF-16 units) and Lean character counts agree.
* JS numbers appearing as data are modelled as Int.  Number.isInteger is
  then always true; no claim depends on non-integer numbers.  Loop
  indices and visual offsets that can go negative in JS are modelled as
  Int; sizes that stay non-negative are Nat.
* The regex /\x1b\[[0-9;]*m/ is modelled by an explicit deterministic
  scanner (ansiMatch below); the regex is anchored, deterministic and
  backtracking-free, so the scanner has exactly its semantics.
* Object identity is modelled by a heap: composite values are references
  (ids) into a Heap mapping ids to heap objects.  The WeakSet of seen
  objects becomes a list of ids threaded through the computation in
  evaluation order, which is exactly how the single mutated WeakSet
  behaves inside one top-level format call.
* Unbounded JS recursion/loops are modelled with an explicit fuel
  argument so that every definition is a computable structural
  recursion; fuel-sufficiency and fuel-congruence lemmas below show the
  results are fuel-independent in the regimes the theorems speak about.
* Literal brace characters in string literals are written with the
  escapes \x7b and \x7d.
-/

/-! ## The ANSI control-sequence scanner (src/src/utils/text.ts)

The pattern ANSI_PATTERN = /\x1b\[[0-9;]*m/ : an escape character,
an opening bracket, any run of digits or semicolons, and a final m. -/

/-- A character allowed in the parameter part of an ANSI sequence
(the [0-9;]* of the pattern). -/
def isParamChar (c : Char) : Bool := c.isDigit || c == ';'

/-- Scan the parameter part of an ANSI sequence: a run of digits or
semicolons terminated by the letter m.  Returns the consumed characters
(including the final m) and the remainder, or none if the pattern
fails.  This is the part of /\x1b\[[0-9;]*m/ after the opening
\x1b[ prefix. -/
def ansiParams : List Char → Option (List Char × List Char)
  | [] => none
  | c :: cs =>
    if c = 'm' then some (['m'], cs)
    else if isParamChar c then
      match ansiParams cs with
      | some (p, r) => some (c :: p, r)
      | none => none
    else none

/-- Try to match /^\x1b\[[0-9;]*m/ at the head of a character list.
Returns the full matched sequence and the remainder. -/
def ansiMatch (l : List Char) : Option (List Char × List Char) :=
  match l with
  | c1 :: c2 :: rest =>
    if c1 = '\x1b' ∧ c2 = '[' then
      match ansiParams rest with
      | some (p, r) => some ('\x1b' :: '[' :: p, r)
      | none => none
    else none
  | _ => none

/-! ## stripAnsi (text.ts lines 43-45)

JS: text.replace(ANSI_PATTERN, "") with the global flag: scan left to
right, removing each non-overlapping match, otherwise keeping the
character and advancing by one.  The fuel argument (the length of the
list suffices, each step consumes at least one character) keeps the
recursion structural. -/

def stripGo : Nat → List Char → List Char
  | 0, _ => []
  | _+1, [] => []
  | fuel+1, c :: cs =>
    match ansiMatch (c :: cs) with
    | some (_, rest) => stripGo fuel rest
    | none => c :: stripGo fuel cs

/-- stripAnsi on character lists, with the canonical fuel. -/
def stripAnsiL (l : List Char) : List Char := stripGo l.length l

/-- stripAnsi on strings: removes all ANSI escape codes. -/
def stripAnsi (s : String) : String := String.mk (stripAnsiL s.data)

/-- The visual length of a styled string: its length once all control
sequences are stripped. -/
def visualLen (s : String) : Nat := (stripAnsi s).length

/-! ## sliceWithAnsi (text.ts lines 127-162)

JS loop, kept literally: while i < text.length: at an ANSI match, copy
it when visualIndex >= targetStart and skip it; at an ordinary
character, copy it when targetStart <= visualIndex < targetEnd, then
advance the visual index and break once visualIndex >= targetEnd.
Offsets are Int because JS callers can pass negative or out-of-range
numbers. -/

def sliceGo : Nat → List Char → Int → Int → Int → List Char
  | 0, _, _, _, _ => []
  | _+1, [], _, _, _ => []
  | fuel+1, c :: cs, vi, st, en =>
    match ansiMatch (c :: cs) with
    | some (m, rest) =>
      (if st ≤ vi then m else []) ++ sliceGo fuel rest vi st en
    | none =>
      let keep := if st ≤ vi ∧ vi < en then [c] else []
      if en ≤ vi + 1 then keep
      else keep ++ sliceGo fuel cs (vi + 1) st en

/-- sliceWithAnsi: extract a substring by visual offsets, preserving
ANSI codes.  The optional end defaults to the length of the stripped
string, as in the source (end ?? clean.length). -/
def sliceWithAnsi (text : String) (start : Int) (stop : Option Int) : String :=
  let clean := stripAnsi text
  let en : Int := stop.getD (clean.length : Int)
  String.mk (sliceGo text.data.length text.data 0 start en)

/-! ## getActiveAnsiAt (text.ts lines 72-99)

Scans left to right while i < text.length and visualIndex <= the wanted
visual position, remembering the last ANSI code seen (a reset code
clears it). -/

def getActiveGo : Nat → List Char → Int → Int → String → String
  | 0, _, _, _, last => last
  | _+1, [], _, _, last => last
  | fuel+1, c :: cs, vi, pos, last =>
    if vi ≤ pos then
      match ansiMatch (c :: cs) with
      | some (m, rest) =>
        let code := String.mk m
        getActiveGo fuel rest vi pos (if code = "\x1b[0m" then "" else code)
      | none => getActiveGo fuel cs (vi + 1) pos last
    else last

/-- getActiveAnsiAt: the ANSI color code active at a visual position
(empty string if none). -/
def getActiveAnsiAt (text : String) (pos : Int) : String :=
  getActiveGo text.data.length text.data 0 pos ""

/-! ## JS String.prototype.slice on in-range arguments -/

/-- JS clean.slice(i, j) for 0 <= i <= j: the characters at indices
[i, j), clamped to the string length. -/
def jsSlice (s : String) (i j : Nat) : String :=
  String.mk ((s.data.take j).drop i)

/-! ## The ANSI style engine (src/src/formatting/ansi.ts)

state.enabled is process-wide configuration; it is passed here as the
explicit boolean E.  code(open, close) wraps the text when styling is
enabled, rgb emits a truecolor sequence ended by the reset code. -/

def escStr : String := "\x1b["

def resetStr : String := escStr ++ "0m"

/-- Helper to create ANSI sequences (function code in ansi.ts). -/
def aCode (E : Bool) (o c : Nat) (text : String) : String :=
  if E then escStr ++ toString o ++ "m" ++ text ++ escStr ++ toString c ++ "m"
  else text

def aBold (E : Bool) : String → String := aCode E 1 22
def aDim (E : Bool) : String → String := aCode E 2 22
def aItalic (E : Bool) : String → String := aCode E 3 23
def aRed (E : Bool) : String → String := aCode E 31 39
def aGreen (E : Bool) : String → String := aCode E 32 39
def aYellow (E : Bool) : String → String := aCode E 33 39
def aMagenta (E : Bool) : String → String := aCode E 35 39
def aCyan (E : Bool) : String → String := aCode E 36 39
def aWhite (E : Bool) : String → String := aCode E 37 39
def aGray (E : Bool) : String → String := aCode E 90 39

/-- TrueColor (RGB) sequence (function rgb in ansi.ts). -/
def rgb (E : Bool) (r g b : Nat) (text : String) : String :=
  if E then
    escStr ++ "38;2;" ++ toString r ++ ";" ++ toString g ++ ";" ++ toString b
      ++ "m" ++ text ++ resetStr
  else text

/-- ansi.hex("#f59e0b"), the amber used for generic numbers; the hex
conversion in ansi.ts yields r = 245, g = 158, b = 11. -/
def amber (E : Bool) : String → String := rgb E 245 158 11

/-! Palettes (colors.ts over constants/themes.ts): the vero brand
palette and the HTTP palette, all built with rgb. -/

def veroError (E : Bool) : String → String := rgb E 255 175 215
def veroInfo (E : Bool) : String → String := rgb E 135 215 255
def veroType (E : Bool) : String → String := rgb E 175 135 255

def httpSafe (E : Bool) : String → String := rgb E 135 255 175
def httpMutation (E : Bool) : String → String := rgb E 255 215 135
def httpDelete (E : Bool) : String → String := rgb E 255 175 215
def httpInfoC (E : Bool) : String → String := rgb E 175 135 255
def httpSuccess (E : Bool) : String → String := rgb E 135 255 175
def httpRedirect (E : Bool) : String → String := rgb E 135 215 255
def httpClientError (E : Bool) : String → String := rgb E 255 215 135
def httpServerError (E : Bool) : String → String := rgb E 255 175 215

/-! ## The value formatter (the format function, object-formatter module)

Values are a closed kind set; composites live in a heap so that object
identity (the WeakSet of seen objects) is expressible.  A Date carries
the string its toISOString() produces; an Error carries its name, its
message and the already-extracted first stack frame (the source computes
value.stack?.split("\n")[1]?.trim() || "" from the raw stack). -/

inductive Value where
  | vnull
  | vundef
  | vbool (b : Bool)
  | vint (n : Int)
  | vstr (s : String)
  | vsym (s : String)
  | vfun (name : String)
  | vref (id : Nat)
deriving Repr, DecidableEq

inductive HObj where
  | harr (elems : List Value)
  | hdate (iso : String)
  | herr (name msg frame : String)
  | hobj (fields : List (String × Value))

/-- A heap: total map from object ids to heap objects.  In JS every
reference points at a live object, so the map is total. -/
abbrev Heap := Nat → HObj

/-- DEFAULT_INDENT.repeat(d) with DEFAULT_INDENT = two spaces. -/
def indentRep (d : Nat) : String := String.join (List.replicate d "  ")

/-- The fixed HTTP verb alternatives of the regex
/^(GET|POST|PUT|PATCH|DELETE|HEAD|OPTIONS)$/ (no i flag: the
whole-string match is case sensitive). -/
def httpVerbList : List String :=
  ["GET", "POST", "PUT", "PATCH", "DELETE", "HEAD", "OPTIONS"]

/-- The number branch of format: HTTP status codes 100-599 get bucket
colors, all other numbers are amber.  Number.isInteger is always true in
the Int model. -/
def fmtNumber (E : Bool) (n : Int) : String :=
  if 100 ≤ n ∧ n < 600 then
    if 100 ≤ n ∧ n < 200 then httpInfoC E (toString n)
    else if 200 ≤ n ∧ n < 300 then httpSuccess E (toString n)
    else if 300 ≤ n ∧ n < 400 then httpRedirect E (toString n)
    else if 400 ≤ n ∧ n < 500 then httpClientError E (toString n)
    else httpServerError E (toString n)
  else amber E (toString n)

/-- JS String.prototype.toUpperCase restricted to ASCII, which covers
every string the claims exercise. -/
def jsToUpper (s : String) : String := String.mk (s.data.map Char.toUpper)

/-- The string branch of format: the case-sensitive verb match, then
compact (unquoted) or quoted generic string rendering. -/
def fmtString (E : Bool) (compact : Bool) (s : String) : String :=
  if httpVerbList.contains s then
    let verb := jsToUpper s
    if verb = "GET" ∨ verb = "HEAD" ∨ verb = "OPTIONS" then httpSafe E verb
    else if verb = "DELETE" then httpDelete E verb
    else httpMutation E verb
  else if compact then aGreen E s
  else aGreen E ("\"" ++ s ++ "\"")

/-- The key display of the object branch: unquoted when the key matches
/^[a-zA-Z_$][a-zA-Z0-9_$]*$/, quoted otherwise. -/
def isIdentKey (s : String) : Bool :=
  match s.data with
  | [] => false
  | c :: cs =>
    (c.isAlpha || c == '_' || c == '$') &&
      cs.all (fun d => d.isAlpha || d.isDigit || d == '_' || d == '$')

def keyDisplay (k : String) : String :=
  if isIdentKey k then k else "\"" ++ k ++ "\""

/-- Sequential formatting of a list of child values, threading the seen
set left to right; go is the recursive formatter at the child depth. -/
def fmtItems (go : Value → List Nat → Option (String × List Nat)) :
    List Value → List Nat → Option (List String × List Nat)
  | [], seen => some ([], seen)
  | v :: vs, seen =>
    match go v seen with
    | none => none
    | some (s, seen1) =>
      match fmtItems go vs seen1 with
      | none => none
      | some (ss, seen2) => some (s :: ss, seen2)

/-- The fuelled body of format.  The dispatch order, the colorizations,
the depth check, the circular check and pre-order seen registration, the
single/multi-line array decision on the raw length of the joined string,
the date, error and generic object branches all follow the source
line by line.  Fuel maxDepth - depth + 1 always suffices (theorem
formatF_isSome). -/
def formatF : Nat → Bool → Heap → Value → Nat → Nat → List Nat → Bool →
    Option (String × List Nat)
  | 0, _, _, _, _, _, _, _ => none
  | _+1, E, _, .vnull, _, _, seen, _ => some (aBold E (aGray E "null"), seen)
  | _+1, E, _, .vundef, _, _, seen, compact =>
    some (if compact then "-" else aDim E (aGray E "undefined"), seen)
  | _+1, E, _, .vbool b, _, _, seen, _ =>
    some (if b then aYellow E "true" else aRed E "false", seen)
  | _+1, E, _, .vint n, _, _, seen, _ => some (fmtNumber E n, seen)
  | _+1, E, _, .vstr s, _, _, seen, compact => some (fmtString E compact s, seen)
  | _+1, E, _, .vsym s, _, _, seen, _ => some (veroType E s, seen)
  | _+1, E, _, .vfun name, _, _, seen, _ =>
    some (veroInfo E ("[Function: " ++ (if name = "" then "anonymous" else name) ++ "]"), seen)
  | fuel+1, E, h, .vref id, depth, maxDepth, seen, compact =>
    if maxDepth ≤ depth then some (aDim E (aCyan E "[Object]"), seen)
    else if seen.contains id then some (veroError E "[Circular]", seen)
    else
      let seen1 := id :: seen
      match h id with
      | .harr elems =>
        if elems.isEmpty then some ("[]", seen1)
        else
          match fmtItems (fun v s => formatF fuel E h v (depth+1) maxDepth s compact)
              elems seen1 with
          | none => none
          | some (items, seen2) =>
            let singleLine := "[ " ++ String.intercalate ", " items ++ " ]"
            if singleLine.length < 60 then some (singleLine, seen2)
            else
              let indentStr := indentRep depth
              let nested := indentRep (depth + 1)
              some ("[\n" ++
                String.intercalate ",\n" (items.map (fun i => nested ++ i)) ++
                "\n" ++ indentStr ++ "]", seen2)
      | .hdate iso => some (aMagenta E iso, seen1)
      | .herr name msg frame =>
        some (veroError E (name ++ ": " ++ msg) ++ "\n" ++ aDim E frame, seen1)
      | .hobj fields =>
        if fields.isEmpty then some ("\x7b\x7d", seen1)
        else
          match fmtItems (fun v s => formatF fuel E h v (depth+1) maxDepth s compact)
              (fields.map (fun p => p.2)) seen1 with
          | none => none
          | some (vals, seen2) =>
            let indentStr := indentRep depth
            let nested := indentRep (depth + 1)
            let lines := List.zipWith
              (fun k fv => nested ++ aWhite E (keyDisplay k) ++ ": " ++ fv)
              (fields.map (fun p => p.1)) vals
            some ("\x7b\n" ++ String.intercalate ",\n" lines ++
              "\n" ++ indentStr ++ "\x7d", seen2)

/-- format at explicit depth/maxDepth/seen/compact, with the canonical
sufficient fuel. -/
def formatV (E : Bool) (h : Heap) (v : Value) (depth maxDepth : Nat)
    (seen : List Nat) (compact : Bool) : String × List Nat :=
  (formatF (maxDepth - depth + 1) E h v depth maxDepth seen compact).getD ("", seen)

/-- The caller-facing options object of format: all fields optional. -/
structure FormatOptionsIn where
  depth : Option Nat := none
  maxDepth : Option Nat := none
  seen : Option (List Nat) := none
  compact : Option Bool := none

/-- Option defaulting of format: depth: options.depth || 0 (both 0 and
absent give 0); maxDepth: options.maxDepth || 10 (the falsy value 0 also
gives 10); seen: options.seen || new WeakSet() (any present set is
truthy, even empty); compact: options.compact || false. -/
def resolveDepth (o : Option Nat) : Nat := o.getD 0

def resolveMaxDepth (o : Option Nat) : Nat :=
  match o with
  | none => 10
  | some m => if m = 0 then 10 else m

def resolveSeen (o : Option (List Nat)) : List Nat := o.getD []

def resolveCompact (o : Option Bool) : Bool := o.getD false

/-- The public format(value, options) entry point. -/
def format (E : Bool) (h : Heap) (v : Value) (o : FormatOptionsIn) : String :=
  (formatV E h v (resolveDepth o.depth) (resolveMaxDepth o.maxDepth)
    (resolveSeen o.seen) (resolveCompact o.compact)).1

/-- Per-element formatting with per-element canonical fuel; used to
state what the recursive calls of the array/object branches compute. -/
def formatSeq (E : Bool) (h : Heap) :
    List Value → Nat → Nat → List Nat → Bool → List String × List Nat
  | [], _, _, seen, _ => ([], seen)
  | v :: vs, depth, maxDepth, seen, compact =>
    let r1 := formatV E h v depth maxDepth seen compact
    let r2 := formatSeq E h vs depth maxDepth r1.2 compact
    (r1.1 :: r2.1, r2.2)

/-- Occurrence count of a non-empty pattern in a character list:
non-overlapping, scanning left to right. -/
def countOccGo (pat : List Char) : Nat → List Char → Nat
  | 0, _ => 0
  | _+1, [] => 0
  | fuel+1, c :: cs =>
    if pat.isPrefixOf (c :: cs) then
      1 + countOccGo pat fuel ((c :: cs).drop pat.length)
    else countOccGo pat fuel cs

/-- Occurrence count of a pattern in a string. -/
def countSubstr (s pat : String) : Nat := countOccGo pat.data s.data.length s.data

/-! ## Branch characterizations of the formatter -/

/-- What the array branch computes, phrased with per-element formatV:
elements formatted at depth+1 threading the seen set, then the
single-line versus multi-line decision on the raw length (style
sequences included) of the joined string. -/
def arrayRender (E : Bool) (h : Heap) (elems : List Value) (depth maxDepth : Nat)
    (seen1 : List Nat) (compact : Bool) : String × List Nat :=
  let r := formatSeq E h elems (depth + 1) maxDepth seen1 compact
  let singleLine := "[ " ++ String.intercalate ", " r.1 ++ " ]"
  if singleLine.length < 60 then (singleLine, r.2)
  else
    let indentStr := indentRep depth
    let nested := indentRep (depth + 1)
    ("[\n" ++ String.intercalate ",\n" (r.1.map (fun i => nested ++ i)) ++ "\n" ++
      indentStr ++ "]", r.2)

/-- Verb-class colorization: read-only verbs mint green, DELETE soft
pink, the remaining mutations peach orange. -/
def verbColor (E : Bool) (s : String) : String :=
  if s = "GET" ∨ s = "HEAD" ∨ s = "OPTIONS" then httpSafe E s
  else if s = "DELETE" then httpDelete E s
  else httpMutation E s

/-- Example heap for the cyclic object a = \x7b\x7d; a.self = a. -/
def heapCyc : Heap := fun _ => .hobj [("self", .vref 0)]

/-- Example heap for the array [1, 2, 3]. -/
def heapArr123 : Heap := fun _ => .harr [.vint 1, .vint 2, .vint 3]

/-- Example heap with only an empty object. -/
def emptyHeap : Heap := fun _ => .hobj []

/-! ## The table/card layout engine (src/src/formatting/layout.ts)

createTable normalizes the input to records, computes the header union
and a plain string matrix for width accounting, decides once between
grid and card mode, and renders.  The terminal width (the collaborator
getTerminalWidth) is an explicit parameter.

Modelling notes, in addition to the global conventions:
* Math.floor(w * (maxTableWidth / totalWidth)) and the other
  shrink/expand factors are computed in rationals (Nat floor division)
  rather than binary floating point; the claims proved below never
  depend on inputs where the two differ.
* String(val) for a function value yields the function source text in
  JS; the model carries only the name.  String(val) for a symbol throws
  in JS.  No claim exercises functions or symbols inside tables.
* JS " ".repeat(n) throws for negative n and the column widths keep the
  relevant quantities non-negative on the inputs the claims speak
  about; Nat subtraction clamps at 0 instead. -/

def strRepeat (s : String) (n : Nat) : String := String.join (List.replicate n s)

/-- Object.keys / Object.entries of a normalized table row.  A non
object-like element d is wrapped as the single-field record
\x7bvalue: d\x7d; array indices enumerate as decimal keys; Date and
Error objects have no own enumerable keys. -/
def recordEntries (h : Heap) (v : Value) : List (String × Value) :=
  match v with
  | .vref id =>
    match h id with
    | .hobj fields => fields
    | .harr elems => elems.enum.map (fun p => (toString p.1, p.2))
    | .hdate _ => []
    | .herr _ _ _ => []
  | other => [("value", other)]

/-- row[header]: first binding of the key, none when absent
(undefined). -/
def rowGet : List (String × Value) → String → Option Value
  | [], _ => none
  | (k, v) :: r, key => if k = key then some v else rowGet r key

/-- Array.from(new Set(xs)): deduplication keeping first occurrences. -/
def dedupAcc : List String → List String → List String
  | [], _ => []
  | x :: xs, acc =>
    if acc.contains x then dedupAcc xs acc else x :: dedupAcc xs (acc ++ [x])

/-- String(val) for the primitive kinds (callers have already handled
object-likes and undefined). -/
def jsPrimToString : Value → String
  | .vnull => "null"
  | .vundef => "undefined"
  | .vbool b => if b then "true" else "false"
  | .vint n => toString n
  | .vstr s => s
  | .vsym s => s
  | .vfun name => "function " ++ name ++ "() \x7b\x7d"
  | .vref _ => "[object]"

/-- The plain cell form of a present value: object-likes collapse to
"[Obj]", undefined to "-", everything else to String(val). -/
def cellPlainVal : Value → String
  | .vref _ => "[Obj]"
  | .vundef => "-"
  | v => jsPrimToString v

/-- The plain cell form of row[header] (absent key = undefined). -/
def cellPlain : Option Value → String
  | none => "-"
  | some v => cellPlainVal v

/-- The normalized rows of createTable. -/
def rowsOf (h : Heap) (data : List Value) : List (List (String × Value)) :=
  data.map (recordEntries h)

/-- The ordered union of all record keys, first-seen order. -/
def headersOf (h : Heap) (data : List Value) : List String :=
  dedupAcc ((rowsOf h data).flatMap (fun r => r.map (fun p => p.1))) []

/-- The plain string matrix (step 3 of createTable). -/
def stringMatrixOf (h : Heap) (data : List Value) : List (List String) :=
  (rowsOf h data).map (fun r => (headersOf h data).map (fun hd => cellPlain (rowGet r hd)))

/-- Column widths: max of header length and every cell length in the
column, plus the fixed padding 2. -/
def colWidthsOf (headers : List String) (matrix : List (List String)) : List Nat :=
  headers.enum.map (fun p =>
    (matrix.foldl (fun mx row => max mx ((row.get? p.1).getD "").length)
      p.2.length) + 2)

/-- createCard (layout.ts lines 188-248): one vertically bordered block
per record, title "Registro #n", each field rendered as
key: formattedValue with the formatter in compact mode at maxDepth 1,
padding computed from the plain value string. -/
def createCard (E : Bool) (h : Heap) (termW : Nat)
    (row : List (String × Value)) (index : Nat) : String :=
  let cardWidth := min (termW - 4) 60
  let contentWidth := cardWidth - 2
  let title := " Registro #" ++ toString (index + 1) ++ " "
  let titleLine := strRepeat "─" (cardWidth - title.length)
  let top := aGray E ("╭" ++ title ++ titleLine ++ "╮")
  let body := row.map (fun kv =>
    let formattedValue := (formatV E h kv.2 0 1 [] true).1
    let valueStr := cellPlainVal kv.2
    let keyPart := aBold E (aWhite E kv.1)
    let sep2 := aDim E ": "
    let display := keyPart ++ sep2 ++ formattedValue
    let cleanLength := kv.1.length + 2 + valueStr.length
    let padding := strRepeat " " (contentWidth - cleanLength)
    aGray E "│" ++ " " ++ display ++ padding ++ " " ++ aGray E "│")
  let bottom := aGray E ("╰" ++ strRepeat "─" cardWidth ++ "╯")
  String.intercalate "\n" ([top] ++ body ++ [bottom])

/-- The card-mode output: one card per record joined by newlines. -/
def renderCards (E : Bool) (h : Heap) (termW : Nat)
    (rows : List (List (String × Value))) : String :=
  String.intercalate "\n" (rows.enum.map (fun p => createCard E h termW p.2 p.1))

/-- drawLine of createTable for a given character set (left, mid,
right, horizontal). -/
def drawLineWith (leftC midC rightC hC : String) (colWidths : List Nat) : String :=
  leftC ++ String.intercalate midC (colWidths.map (fun w => strRepeat hC w)) ++ rightC

/-- One header cell of drawRow: truncate with a single ellipsis when the
raw cell exceeds the interior width, then pad. -/
def drawHeaderCell (E : Bool) (colW : Nat) (cell : String) : String :=
  let maxCellWidth := colW - 2
  let displayCell :=
    if cell.length > maxCellWidth then String.mk (cell.data.take (maxCellWidth - 1)) ++ "…"
    else cell
  let pad := colW - displayCell.length
  let cleanCell := " " ++ displayCell ++ strRepeat " " (pad - 1)
  aBold E (aWhite E cleanCell)

/-- The header row of the grid. -/
def drawHeaderRow (E : Bool) (colWidths : List Nat) (cells : List String) : String :=
  let sep := aGray E "│"
  sep ++ String.intercalate sep (List.zipWith (drawHeaderCell E) colWidths cells) ++ sep

/-- One data cell of the grid: the cell is rendered through the Value
Formatter in compact mode with maxDepth = 1; when the plain form
overflows the column the plain text is truncated with an ellipsis and
dimmed, and width accounting uses the truncated plain length. -/
def drawDataCell (E : Bool) (h : Heap) (colW : Nat) (plain : String) (val : Value) :
    String :=
  let displayCell := (formatV E h val 0 1 [] true).1
  let maxCellWidth := colW - 2
  if plain.length > maxCellWidth then
    let truncated := String.mk (plain.data.take (maxCellWidth - 1)) ++ "…"
    let displayCell2 := (formatV E h val 0 1 [] true).1
    let displayCell3 :=
      if truncated.length < plain.length then aDim E truncated else displayCell2
    let pad := colW - truncated.length
    " " ++ displayCell3 ++ strRepeat " " (pad - 1)
  else
    let pad := colW - plain.length
    " " ++ displayCell ++ strRepeat " " (pad - 1)

/-- Helper: the values of a row in header order (missing keys are
undefined). -/
def rowVals (headers : List String) (row : List (String × Value)) : List Value :=
  headers.map (fun hd => (rowGet row hd).getD .vundef)

def zipWith3Cells (E : Bool) (h : Heap) :
    List Nat → List String → List Value → List String
  | w :: ws, p :: ps, v :: vs => drawDataCell E h w p v :: zipWith3Cells E h ws ps vs
  | _, _, _ => []

/-- One data row of the grid. -/
def drawDataRow (E : Bool) (h : Heap) (colWidths : List Nat)
    (plains : List String) (vals : List Value) : String :=
  let sep := aGray E "│"
  sep ++ String.intercalate sep (zipWith3Cells E h colWidths plains vals) ++ sep

/-- The grid-mode output: top border, bold header row, divider, one row
per record, bottom border. -/
def renderGrid (E : Bool) (h : Heap) (colWidths : List Nat) (headers : List String)
    (rows : List (List (String × Value))) (matrix : List (List String)) : String :=
  let top := aGray E (drawLineWith "╭" "┬" "╮" "─" colWidths)
  let middle := aGray E (drawLineWith "├" "┼" "┤" "─" colWidths)
  let bottom := aGray E (drawLineWith "╰" "┴" "╯" "─" colWidths)
  let dataRows := (List.zip matrix rows).map (fun p =>
    drawDataRow E h colWidths p.1 (rowVals headers p.2))
  String.intercalate "\n"
    ([top, drawHeaderRow E colWidths headers, middle] ++ dataRows ++ [bottom])

/-- The grid-mode column width adjustment (step 4.2): proportional
shrink to a floor of 8 when over budget, proportional expansion towards
the card width on small screens, remainder to the first columns. -/
def adjustColWidths (termW : Nat) (headersLen : Nat) (colWidths : List Nat)
    (totalWidth maxTableWidth : Nat) : List Nat :=
  let isSmallScreen := termW < 60
  let bordersWidth := headersLen + 1
  if totalWidth > maxTableWidth then
    let availableWidth := maxTableWidth - bordersWidth
    let sumW := colWidths.foldl (fun s w => s + w) 0
    colWidths.map (fun w => max 8 (w * availableWidth / sumW))
  else if isSmallScreen then
    let cardWidth := min (termW - 4) 60
    let targetInnerWidth := cardWidth
    let currentContentWidth := colWidths.foldl (fun s w => s + w) 0
    let currentInnerWidth := currentContentWidth + (headersLen - 1)
    if currentInnerWidth < targetInnerWidth then
      let targetContentWidth := targetInnerWidth - (headersLen - 1)
      let expanded := colWidths.map (fun w => w * targetContentWidth / currentContentWidth)
      let newTotal := expanded.foldl (fun s w => s + w) 0
      let remainder := targetContentWidth - newTotal
      expanded.enum.map (fun p => if p.1 < remainder then p.2 + 1 else p.2)
    else colWidths
  else colWidths

/-- createTable (layout.ts lines 254-433). -/
def createTable (E : Bool) (h : Heap) (termW : Nat) (data : List Value) : String :=
  if data.isEmpty then aDim E (aGray E " (Tabela Vazia) ")
  else
    let rows := rowsOf h data
    let headers := headersOf h data
    let matrix := stringMatrixOf h data
    let maxTableWidth := termW - 2
    let colWidths := colWidthsOf headers matrix
    let totalWidth := (colWidths.foldl (fun s w => s + w) 0) + (headers.length + 1)
    let tooMany := headers.length > 6
    let wouldNeed := totalWidth > maxTableWidth ∧
      colWidths.any (fun w => w * maxTableWidth / totalWidth < 10) = true
    if tooMany ∨ wouldNeed then renderCards E h termW rows
    else
      let colW2 := adjustColWidths termW headers.length colWidths totalWidth maxTableWidth
      renderGrid E h colW2 headers rows matrix

/-- Example heap: a record whose single cell holds a nested object
(\x7ba: \x7bb: \x7bc: 2\x7d\x7d\x7d grid cell input). -/
def heapC : Heap := fun id =>
  if id = 0 then .hobj [("a", .vref 1)]
  else if id = 1 then .hobj [("b", .vref 2)]
  else .hobj [("c", .vint 2)]

/-- Example heap: one record with seven distinct keys. -/
def heap7 : Heap := fun _ => .hobj
  [("a", .vint 1), ("b", .vint 2), ("c", .vint 3), ("d", .vint 4),
   ("e", .vint 5), ("f", .vint 6), ("g", .vint 7)]

/-! ## The text wrapper (layout.ts lines 23-131)

wrapText splits on existing newlines, detects object content (any line
whose stripped form starts with two spaces), and for each line either
pushes it whole (with the fixed 4-space indent for continuation lines
that are not object content) or wraps it with the greedy
break-at-last-space loop, re-applying the active style on continuation
chunks of the first line that are not stack-trace lines.

Modelling notes:
* lastIndexOf(" ", fromIndex) clamps a negative fromIndex to 0 and
  returns -1 when no space is found at or before it.
* The comparison lastSpace >= offset + width * 0.6 is modelled in exact
  rationals (5 * lastSpace >= 5 * offset + 3 * width); the IEEE double
  product width * 0.6 rounds to the same comparison outcome for every
  width below 2^50, so no claim is affected.
* The while loop gets fuel cleanLine.length + 1; when
  maxWidth >= 5 every iteration advances the offset so the fuel is
  sufficient, and the width-bound theorems below hold for every fuel. -/

def splitNlGo : List Char → List Char → List String
  | [], acc => [String.mk acc.reverse]
  | c :: cs, acc =>
    if c = '\n' then String.mk acc.reverse :: splitNlGo cs []
    else splitNlGo cs (c :: acc)

/-- JS text.split("\n"). -/
def jsSplitNewline (s : String) : List String := splitNlGo s.data []

def INDENT4 : String := "    "

/-- JS String.prototype.trimStart (the ASCII whitespace the claims
meet). -/
def jsTrimStart (s : String) : String :=
  String.mk (s.data.dropWhile (fun c => c == ' ' || c == '\t' || c == '\n' || c == '\r'))

def strStartsWith (s pre : String) : Bool := pre.data.isPrefixOf s.data

/-- The /^ */ match: the number of leading spaces. -/
def leadingSpaces : List Char → Nat
  | [] => 0
  | c :: cs => if c = ' ' then leadingSpaces cs + 1 else 0

def lastSpaceScan : List Char → Nat → Nat → Int → Int
  | [], _, _, best => best
  | c :: cs, i, bound, best =>
    if i > bound then best
    else lastSpaceScan cs (i + 1) bound (if c = ' ' then (i : Int) else best)

/-- JS cleanLine.lastIndexOf(" ", fromIndex). -/
def lastSpaceLE (clean : List Char) (fromIdx : Int) : Int :=
  let bound : Nat := if fromIdx < 0 then 0 else fromIdx.toNat
  lastSpaceScan clean 0 bound (-1)

/-- The space-skipping loop after a break point. -/
def skipSpaces (clean : List Char) (bp : Int) : Int :=
  if bp < 0 then bp
  else bp + ((clean.drop bp.toNat).takeWhile (fun c => c == ' ')).length

/-- Re-apply the active color on a continuation chunk of the first
line, unless the chunk is a stack-trace line. -/
def reapplyColor (line : String) (i0 first : Bool) (offset : Int) (chunk : String) :
    String :=
  if !first && i0 then
    let cleanChunk := stripAnsi chunk
    let isStackTrace := strStartsWith (jsTrimStart cleanChunk) "at "
    if !isStackTrace then
      let ac := getActiveAnsiAt line offset
      if ac ≠ "" then ac ++ chunk else chunk
    else chunk
  else chunk

/-- The wrapping while loop for one overlong line. -/
def wrapLoop : Nat → String → List Char → Bool → Bool → Int → Int → Bool →
    List String
  | 0, _, _, _, _, _, _, _ => []
  | fuel+1, line, clean, i0, isObj, maxW, offset, first =>
    if offset < (clean.length : Int) then
      let pw : String × Int :=
        if i0 then (if first then ("", maxW) else (INDENT4, maxW - 4))
        else if !isObj then (INDENT4, maxW - 4)
        else
          let oi := strRepeat " " (leadingSpaces clean)
          if first then ("", maxW) else (oi, maxW - (oi.length : Int))
      let width := pw.2
      let remaining : Int := (clean.length : Int) - offset
      if remaining ≤ width then
        let chunk := sliceWithAnsi line offset none
        let chunk2 := reapplyColor line i0 first offset chunk
        [pw.1 ++ chunk2]
      else
        let bp0 : Int := offset + width
        let ls := lastSpaceLE clean bp0
        let bp := if offset < ls ∧ 5 * ls ≥ 5 * offset + 3 * width then ls else bp0
        let chunk := sliceWithAnsi line offset (some bp)
        let chunk2 := reapplyColor line i0 first offset chunk
        let bp2 := skipSpaces clean bp
        (pw.1 ++ chunk2) :: wrapLoop fuel line clean i0 isObj maxW bp2 false
    else []

/-- wrapText(text, maxWidth). -/
def wrapText (text : String) (maxW : Int) : List String :=
  let existing := jsSplitNewline text
  let isObj := existing.any (fun l => strStartsWith (stripAnsi l) "  ")
  (existing.enum.map (fun p =>
    let line := p.2
    let clean := (stripAnsi line).data
    if (clean.length : Int) ≤ maxW then
      [if p.1 = 0 then line else if isObj then line else INDENT4 ++ line]
    else wrapLoop (clean.length + 1) line clean (p.1 == 0) isObj maxW 0 true)).join

theorem ansiParams_shape {l p r : List Char} (h : ansiParams l = some (p, r)) :
    l = p ++ r ∧ p ≠ [] := by
  induction l generalizing p r with
  | nil => simp [ansiParams] at h
  | cons c cs ih =>
    simp only [ansiParams] at h
    by_cases hm : c = 'm'
    · simp [hm] at h
      obtain ⟨hp, hr⟩ := h
      subst hp; subst hr; subst hm
      simp
    · by_cases hpc : isParamChar c = true
      · simp [hm, hpc] at h
        cases hrec : ansiParams cs with
        | none => rw [hrec] at h; simp at h
        | some pr =>
          obtain ⟨p', r'⟩ := pr
          rw [hrec] at h
          simp at h
          obtain ⟨hp, hr⟩ := h
          obtain ⟨hl, -⟩ := ih hrec
          subst hp; subst hr
          simp [hl]
      · simp [hm, hpc] at h

theorem ansiMatch_shape {l m r : List Char} (h : ansiMatch l = some (m, r)) :
    l = m ++ r ∧ ∃ p, m = '\x1b' :: '[' :: p ∧ ansiParams (p ++ r) = some (p, r) := by
  match l with
  | [] => simp [ansiMatch] at h
  | [c] => simp [ansiMatch] at h
  | c1 :: c2 :: rest =>
    simp only [ansiMatch] at h
    by_cases hc : c1 = '\x1b' ∧ c2 = '['
    · rw [if_pos hc] at h
      cases hp : ansiParams rest with
      | none => rw [hp] at h; simp at h
      | some pr =>
        obtain ⟨p, r'⟩ := pr
        rw [hp] at h
        simp at h
        obtain ⟨hm, hr⟩ := h
        obtain ⟨hrest, -⟩ := ansiParams_shape hp
        subst hm
        constructor
        · simp [hc.1, hc.2, hrest, hr]
        · subst hr
          exact ⟨p, rfl, by rw [← hrest, hp]⟩
    · rw [if_neg hc] at h; simp at h

/-- A failing head character: if the head is not the escape character,
no ANSI sequence starts here. -/
theorem ansiMatch_ne_esc {c : Char} (hc : c ≠ '\x1b') (l : List Char) :
    ansiMatch (c :: l) = none := by
  match l with
  | [] => simp [ansiMatch]
  | c2 :: rest => simp [ansiMatch, hc]

/-- A singleton list never matches (the pattern needs at least three
characters). -/
theorem ansiMatch_single (c : Char) : ansiMatch [c] = none := by
  simp [ansiMatch]

theorem ansiMatch_nil : ansiMatch [] = none := by simp [ansiMatch]

/-- A second escape character also kills a match attempt. -/
theorem ansiMatch_esc_esc (l : List Char) :
    ansiMatch ('\x1b' :: '\x1b' :: l) = none := by
  simp [ansiMatch]

/-- The matched sequence is a complete sequence: rescanned on its own or
followed by anything else, it matches itself exactly.  This is the key
determinism fact behind all strip/slice reasoning. -/
theorem ansiParams_append {l p r : List Char} (h : ansiParams l = some (p, r)) :
    ∀ x, ansiParams (p ++ x) = some (p, x) := by
  induction l generalizing p r with
  | nil => simp [ansiParams] at h
  | cons c cs ih =>
    intro x
    simp only [ansiParams] at h
    by_cases hm : c = 'm'
    · simp [hm] at h
      obtain ⟨hp, -⟩ := h
      subst hp
      simp [ansiParams]
    · by_cases hpc : isParamChar c = true
      · simp [hm, hpc] at h
        cases hrec : ansiParams cs with
        | none => rw [hrec] at h; simp at h
        | some pr =>
          obtain ⟨p', r'⟩ := pr
          rw [hrec] at h
          simp at h
          obtain ⟨hp, -⟩ := h
          subst hp
          have := ih hrec x
          simp only [List.cons_append, ansiParams, hm, if_false, hpc, if_true, this]
          simp [hm, hpc, this]
      · simp [hm, hpc] at h

theorem ansiMatch_append {l m r : List Char} (h : ansiMatch l = some (m, r)) :
    ∀ x, ansiMatch (m ++ x) = some (m, x) := by
  intro x
  obtain ⟨-, p, hm, hp⟩ := ansiMatch_shape h
  subst hm
  have hpx := ansiParams_append hp x
  simp [ansiMatch, hpx]

/-- ansiMatch on a list headed by a complete matched sequence followed by
anything: convenient cons-free restatement. -/
theorem ansiMatch_self {l m r : List Char} (h : ansiMatch l = some (m, r)) :
    ansiMatch m = some (m, []) := by
  have := ansiMatch_append h []
  simpa using this

theorem stripGo_congr :
    ∀ (f g : Nat) (l : List Char), l.length ≤ f → l.length ≤ g →
      stripGo f l = stripGo g l := by
  intro f
  induction f with
  | zero =>
    intro g l hf _
    have : l = [] := List.eq_nil_of_length_eq_zero (Nat.le_zero.mp hf)
    subst this
    cases g <;> simp [stripGo]
  | succ f ih =>
    intro g l hf hg
    match l with
    | [] => cases g <;> simp [stripGo]
    | c :: cs =>
      have hg1 : ∃ g', g = g' + 1 := by
        cases g with
        | zero => simp at hg
        | succ g' => exact ⟨g', rfl⟩
      obtain ⟨g', rfl⟩ := hg1
      simp only [stripGo]
      cases hm : ansiMatch (c :: cs) with
      | none =>
        have hlen : cs.length ≤ f := by
          simp only [List.length_cons] at hf; omega
        have hlen' : cs.length ≤ g' := by
          simp only [List.length_cons] at hg; omega
        rw [ih g' cs hlen hlen']
      | some pr =>
        obtain ⟨m, rest⟩ := pr
        obtain ⟨happ, p, hm2, -⟩ := ansiMatch_shape hm
        have hlen0 : cs.length + 1 = m.length + rest.length := by
          have := congrArg List.length happ
          simpa [Nat.add_comm] using this
        have hm3 : m.length = p.length + 2 := by rw [hm2]; simp
        have h1 : rest.length ≤ f := by
          simp only [List.length_cons] at hf; omega
        have h2 : rest.length ≤ g' := by
          simp only [List.length_cons] at hg; omega
        exact ih g' rest h1 h2

/-- Unfolding lemma for stripAnsiL at a matched sequence. -/
theorem stripAnsiL_match {l m rest : List Char} (h : ansiMatch l = some (m, rest)) :
    stripAnsiL l = stripAnsiL rest := by
  obtain ⟨happ, p, hm2, -⟩ := ansiMatch_shape h
  have hne : l ≠ [] := by
    rw [happ, hm2]; simp
  match l, hne with
  | c :: cs, _ =>
    have hlen : (c :: cs).length = cs.length + 1 := by simp
    unfold stripAnsiL
    rw [hlen]
    simp only [stripGo, h]
    have hlen0 : cs.length + 1 = m.length + rest.length := by
      have := congrArg List.length happ
      simpa [Nat.add_comm] using this
    have hm3 : m.length = p.length + 2 := by rw [hm2]; simp
    apply stripGo_congr
    · omega
    · exact Nat.le_refl _

/-- Unfolding lemma for stripAnsiL at a visible character. -/
theorem stripAnsiL_visible {c : Char} {cs : List Char}
    (h : ansiMatch (c :: cs) = none) :
    stripAnsiL (c :: cs) = c :: stripAnsiL cs := by
  unfold stripAnsiL
  simp only [List.length_cons, stripGo, h]

theorem stripAnsiL_nil : stripAnsiL [] = [] := rfl

/-- A complete control sequence at the front strips away, whatever
follows. -/
theorem stripAnsiL_seq_append {m : List Char}
    (h : ansiMatch m = some (m, [])) (x : List Char) :
    stripAnsiL (m ++ x) = stripAnsiL x := by
  have hmx := ansiMatch_append h x
  exact stripAnsiL_match hmx

/-- A character that is not the escape character is always visible. -/
theorem stripAnsiL_cons_ne_esc {c : Char} (hc : c ≠ '\x1b') (l : List Char) :
    stripAnsiL (c :: l) = c :: stripAnsiL l :=
  stripAnsiL_visible (ansiMatch_ne_esc hc l)

/-- Spaces pass through stripAnsiL. -/
theorem stripAnsiL_spaces_append (k : Nat) (x : List Char) :
    stripAnsiL (List.replicate k ' ' ++ x) = List.replicate k ' ' ++ stripAnsiL x := by
  induction k with
  | zero => simp
  | succ k ih =>
    have : (' ' : Char) ≠ '\x1b' := by decide
    simp only [List.replicate_succ, List.cons_append]
    rw [stripAnsiL_cons_ne_esc this, ih]

theorem stripAnsiL_singleton (c : Char) : stripAnsiL [c] = [c] := by
  unfold stripAnsiL
  simp [stripGo, ansiMatch_single]

theorem sliceGo_congr :
    ∀ (f g : Nat) (l : List Char) (vi st en : Int), l.length ≤ f → l.length ≤ g →
      sliceGo f l vi st en = sliceGo g l vi st en := by
  intro f
  induction f with
  | zero =>
    intro g l vi st en hf _
    have : l = [] := List.eq_nil_of_length_eq_zero (Nat.le_zero.mp hf)
    subst this
    cases g <;> simp [sliceGo]
  | succ f ih =>
    intro g l vi st en hf hg
    match l with
    | [] => cases g <;> simp [sliceGo]
    | c :: cs =>
      have hg1 : ∃ g', g = g' + 1 := by
        cases g with
        | zero => simp at hg
        | succ g' => exact ⟨g', rfl⟩
      obtain ⟨g', rfl⟩ := hg1
      cases hm : ansiMatch (c :: cs) with
      | none =>
        have hlen : cs.length ≤ f := by
          simp only [List.length_cons] at hf; omega
        have hlen' : cs.length ≤ g' := by
          simp only [List.length_cons] at hg; omega
        simp only [sliceGo, hm]
        rw [ih g' cs (vi + 1) st en hlen hlen']
      | some pr =>
        obtain ⟨m, rest⟩ := pr
        obtain ⟨happ, p, hm2, -⟩ := ansiMatch_shape hm
        have hlen0 : cs.length + 1 = m.length + rest.length := by
          have := congrArg List.length happ
          simpa [Nat.add_comm] using this
        have hm3 : m.length = p.length + 2 := by rw [hm2]; simp
        have h1 : rest.length ≤ f := by
          simp only [List.length_cons] at hf; omega
        have h2 : rest.length ≤ g' := by
          simp only [List.length_cons] at hg; omega
        simp only [sliceGo, hm]
        rw [ih g' rest vi st en h1 h2]

/-- The result of getActiveAnsiAt is either empty or one complete ANSI
sequence. -/
theorem getActiveGo_spec :
    ∀ (f : Nat) (l : List Char) (vi pos : Int) (last : String),
      (last = "" ∨ ansiMatch last.data = some (last.data, [])) →
      (getActiveGo f l vi pos last = "" ∨
        ansiMatch (getActiveGo f l vi pos last).data =
          some ((getActiveGo f l vi pos last).data, [])) := by
  intro f
  induction f with
  | zero => intro l vi pos last hlast; exact hlast
  | succ f ih =>
    intro l vi pos last hlast
    match l with
    | [] => exact hlast
    | c :: cs =>
      simp only [getActiveGo]
      by_cases hvi : vi ≤ pos
      · rw [if_pos hvi]
        cases hm : ansiMatch (c :: cs) with
        | none => exact ih cs (vi + 1) pos last hlast
        | some pr =>
          obtain ⟨m, rest⟩ := pr
          apply ih
          by_cases hr : String.mk m = "\x1b[0m"
          · rw [if_pos hr]; left; rfl
          · rw [if_neg hr]; right
            have := ansiMatch_self hm
            simpa using this
      · rw [if_neg hvi]; exact hlast

theorem getActiveAnsiAt_spec (text : String) (pos : Int) :
    getActiveAnsiAt text pos = "" ∨
      ansiMatch (getActiveAnsiAt text pos).data =
        some ((getActiveAnsiAt text pos).data, []) :=
  getActiveGo_spec _ _ _ _ "" (Or.inl rfl)

/-! ## Rescanning lemmas

These lemmas say that slicing never glues characters together into a
new ANSI sequence that was not one in the input: the scanner
classification of the copied characters is stable.  This is what makes
the strip/slice round trip work. -/

theorem ansiParams_esc (x : List Char) : ansiParams ('\x1b' :: x) = none := by
  have h1 : ('\x1b' : Char) ≠ 'm' := by decide
  have h2 : isParamChar '\x1b' = false := by decide
  simp [ansiParams, h1, h2]

theorem ansiParams_single {c : Char} (hc : c ≠ 'm') : ansiParams [c] = none := by
  by_cases hp : isParamChar c = true
  · simp [ansiParams, hc, hp]
  · simp [ansiParams, hc, hp]

theorem ansiParams_cons_none {c : Char} {cs : List Char} (hc : c ≠ 'm')
    (hp : isParamChar c = true) (h : ansiParams (c :: cs) = none) :
    ansiParams cs = none := by
  simp only [ansiParams, hc, if_false, hp, if_true] at h
  cases hcs : ansiParams cs with
  | none => rfl
  | some pr =>
    obtain ⟨p, r⟩ := pr
    rw [hcs] at h
    simp [hc, hp] at h

theorem ansiMatch_pair (c d : Char) : ansiMatch [c, d] = none := by
  by_cases hc : c = '\x1b' ∧ d = '['
  · simp [ansiMatch, hc, ansiParams]
  · simp [ansiMatch, hc]

/-- When only control sequences are being copied (the visual cursor is
already at or past the requested end), the slice output is empty or
starts with the escape character. -/
theorem sliceGo_head_esc :
    ∀ (f : Nat) (l : List Char) (vi st en : Int), st ≤ vi → en ≤ vi →
      sliceGo f l vi st en = [] ∨
        ∃ t, sliceGo f l vi st en = '\x1b' :: t := by
  intro f
  induction f with
  | zero => intro l vi st en _ _; left; rfl
  | succ f ih =>
    intro l vi st en hst hen
    match l with
    | [] => left; rfl
    | c :: cs =>
      cases hm : ansiMatch (c :: cs) with
      | some pr =>
        obtain ⟨m, rest⟩ := pr
        obtain ⟨-, p, hm2, -⟩ := ansiMatch_shape hm
        simp only [sliceGo, hm, if_pos hst]
        right
        exact ⟨'[' :: p ++ sliceGo f rest vi st en, by rw [hm2]; rfl⟩
      | none =>
        have hbreak : en ≤ vi + 1 := by omega
        have hkeep : ¬(st ≤ vi ∧ vi < en) := by omega
        left
        simp only [sliceGo, hm]
        rw [if_neg hkeep, if_pos hbreak]

/-- Slicing a character list whose parameter scan fails cannot make the
parameter scan succeed. -/
theorem ansiParams_sliceGo :
    ∀ (f : Nat) (l : List Char) (vi st en : Int), st ≤ vi →
      ansiParams l = none → ansiParams (sliceGo f l vi st en) = none := by
  intro f
  induction f with
  | zero => intro l vi st en _ _; rfl
  | succ f ih =>
    intro l vi st en hst hpar
    match l with
    | [] => rfl
    | c :: cs =>
      cases hm : ansiMatch (c :: cs) with
      | some pr =>
        obtain ⟨m, rest⟩ := pr
        obtain ⟨-, p, hm2, -⟩ := ansiMatch_shape hm
        simp only [sliceGo, hm, if_pos hst]
        rw [hm2]
        exact ansiParams_esc _
      | none =>
        have hcm : c ≠ 'm' := by
          intro hc
          subst hc
          simp [ansiParams] at hpar
        by_cases hbreak : en ≤ vi + 1
        · simp only [sliceGo, hm, if_pos hbreak]
          by_cases hkeep : st ≤ vi ∧ vi < en
          · rw [if_pos hkeep]
            exact ansiParams_single hcm
          · rw [if_neg hkeep]; rfl
        · have hkeep : st ≤ vi ∧ vi < en := by omega
          simp only [sliceGo, hm, if_neg hbreak, if_pos hkeep]
          by_cases hp : isParamChar c = true
          · have hcs := ansiParams_cons_none hcm hp hpar
            have hrec := ih cs (vi + 1) st en (by omega) hcs
            simp [ansiParams, hcm, hp, hrec]
          · simp [ansiParams, hcm, hp]

/-- Slicing cannot create an ANSI sequence after a visible escape
character that did not start one in the input. -/
theorem ansiMatch_esc_sliceGo :
    ∀ (f : Nat) (l : List Char) (vi st en : Int), st ≤ vi →
      ansiMatch ('\x1b' :: l) = none →
      ansiMatch ('\x1b' :: sliceGo f l vi st en) = none := by
  intro f
  induction f with
  | zero => intro l vi st en _ _; exact ansiMatch_single _
  | succ f ih =>
    intro l vi st en hst hfail
    match l with
    | [] => exact ansiMatch_single _
    | d :: cs =>
      cases hm : ansiMatch (d :: cs) with
      | some pr =>
        obtain ⟨m, rest⟩ := pr
        obtain ⟨-, p, hm2, -⟩ := ansiMatch_shape hm
        simp only [sliceGo, hm, if_pos hst]
        rw [hm2]
        exact ansiMatch_esc_esc _
      | none =>
        by_cases hbreak : en ≤ vi + 1
        · simp only [sliceGo, hm, if_pos hbreak]
          by_cases hkeep : st ≤ vi ∧ vi < en
          · rw [if_pos hkeep]
            exact ansiMatch_pair _ _
          · rw [if_neg hkeep]
            exact ansiMatch_single _
        · have hkeep : st ≤ vi ∧ vi < en := by omega
          simp only [sliceGo, hm, if_neg hbreak, if_pos hkeep]
          by_cases hd : d = '['
          · subst hd
            have hpar : ansiParams cs = none := by
              cases hcs : ansiParams cs with
              | none => rfl
              | some pr2 =>
                obtain ⟨p2, r2⟩ := pr2
                simp [ansiMatch, hcs] at hfail
            have hrec := ansiParams_sliceGo f cs (vi + 1) st en (by omega) hpar
            simp [ansiMatch, hrec]
          · simp [ansiMatch, hd]

/-! ## The strip/slice master theorem

Stripping a slice gives precisely the corresponding take/drop window of
the stripped input. -/

theorem sliceGo_strip :
    ∀ (f : Nat) (l : List Char) (vi st en : Int),
      l.length ≤ f → vi ≤ en →
      stripAnsiL (sliceGo f l vi st en) =
        ((stripAnsiL l).take (en - vi).toNat).drop (st - vi).toNat := by
  intro f
  induction f with
  | zero =>
    intro l vi st en hf _
    have : l = [] := List.eq_nil_of_length_eq_zero (Nat.le_zero.mp hf)
    subst this
    simp [sliceGo, stripAnsiL_nil]
  | succ f ih =>
    intro l vi st en hf hvien
    match l with
    | [] => simp [sliceGo, stripAnsiL_nil]
    | c :: cs =>
      cases hm : ansiMatch (c :: cs) with
      | some pr =>
        obtain ⟨m, rest⟩ := pr
        obtain ⟨happ, p, hm2, -⟩ := ansiMatch_shape hm
        have hlen0 : cs.length + 1 = m.length + rest.length := by
          have := congrArg List.length happ
          simpa [Nat.add_comm] using this
        have hm3 : m.length = p.length + 2 := by rw [hm2]; simp
        have h1 : rest.length ≤ f := by
          simp only [List.length_cons] at hf; omega
        have hstrip : stripAnsiL (c :: cs) = stripAnsiL rest := stripAnsiL_match hm
        simp only [sliceGo, hm]
        by_cases hst : st ≤ vi
        · rw [if_pos hst]
          rw [stripAnsiL_seq_append (ansiMatch_self hm)]
          rw [ih rest vi st en h1 hvien, hstrip]
        · rw [if_neg hst]
          simp only [List.nil_append]
          rw [ih rest vi st en h1 hvien, hstrip]
      | none =>
        have hstrip : stripAnsiL (c :: cs) = c :: stripAnsiL cs := stripAnsiL_visible hm
        have h1 : cs.length ≤ f := by
          simp only [List.length_cons] at hf; omega
        by_cases hbreak : en ≤ vi + 1
        · simp only [sliceGo, hm]
          rw [if_pos hbreak]
          by_cases hen : en = vi
          · have hkeep : ¬(st ≤ vi ∧ vi < en) := by omega
            rw [if_neg hkeep, stripAnsiL_nil, hstrip]
            have ht0 : (en - vi).toNat = 0 := by omega
            rw [ht0]
            simp
          · have hen1 : en = vi + 1 := by omega
            have htake : (en - vi).toNat = 1 := by omega
            by_cases hst : st ≤ vi
            · have hkeep : st ≤ vi ∧ vi < en := by omega
              rw [if_pos hkeep, stripAnsiL_singleton, hstrip, htake]
              have hd0 : (st - vi).toNat = 0 := by omega
              rw [hd0]
              simp
            · have hkeep : ¬(st ≤ vi ∧ vi < en) := by omega
              rw [if_neg hkeep, stripAnsiL_nil, hstrip, htake]
              simp only [List.take_succ_cons, List.take_zero]
              symm
              apply List.drop_eq_nil_of_le
              simp only [List.length_cons, List.length_nil]
              omega
        · have hlt : vi < en := by omega
          simp only [sliceGo, hm]
          rw [if_neg hbreak]
          have hrec := ih cs (vi + 1) st en h1 (by omega)
          by_cases hst : st ≤ vi
          · have hkeep : st ≤ vi ∧ vi < en := ⟨hst, hlt⟩
            rw [if_pos hkeep]
            have hvisible : ansiMatch (c :: sliceGo f cs (vi + 1) st en) = none := by
              by_cases hc : c = '\x1b'
              · subst hc
                exact ansiMatch_esc_sliceGo f cs (vi + 1) st en (by omega) hm
              · exact ansiMatch_ne_esc hc _
            have hc1 : ([c] ++ sliceGo f cs (vi + 1) st en) =
                c :: sliceGo f cs (vi + 1) st en := rfl
            rw [hc1, stripAnsiL_visible hvisible, hrec, hstrip]
            have ht1 : (en - vi).toNat = (en - (vi + 1)).toNat + 1 := by omega
            have hd0 : (st - vi).toNat = 0 := by omega
            have hd0' : (st - (vi + 1)).toNat = 0 := by omega
            rw [ht1, hd0, hd0']
            simp [List.take_succ_cons]
          · have hkeep : ¬(st ≤ vi ∧ vi < en) := by
              intro hco; exact hst hco.1
            rw [if_neg hkeep]
            simp only [List.nil_append]
            rw [hrec, hstrip]
            have ht1 : (en - vi).toNat = (en - (vi + 1)).toNat + 1 := by omega
            have hd1 : (st - vi).toNat = (st - (vi + 1)).toNat + 1 := by omega
            rw [ht1, hd1]
            simp [List.take_succ_cons, List.drop_succ_cons]

/-! ## Totality of the formatter

The depth check guards every recursive call, so recursion depth is
bounded by maxDepth - depth: with fuel exceeding that bound the fuelled
body always returns a result, and the result does not depend on the
fuel. -/

theorem fmtItems_isSome (go : Value → List Nat → Option (String × List Nat))
    (hgo : ∀ v s, (go v s).isSome) :
    ∀ (vs : List Value) (s : List Nat), (fmtItems go vs s).isSome := by
  intro vs
  induction vs with
  | nil => intro s; simp [fmtItems]
  | cons v vs ihv =>
    intro s
    simp only [fmtItems]
    cases hg : go v s with
    | none => have := hgo v s; rw [hg] at this; simp at this
    | some pr =>
      obtain ⟨s1, seen1⟩ := pr
      simp only [hg]
      cases hrest : fmtItems go vs seen1 with
      | none => have := ihv seen1; rw [hrest] at this; simp at this
      | some pr2 =>
        obtain ⟨ss, seen2⟩ := pr2
        simp only [hrest]
        rfl

theorem formatF_isSome :
    ∀ (fuel : Nat) (E : Bool) (h : Heap) (v : Value) (depth maxDepth : Nat)
      (seen : List Nat) (compact : Bool), maxDepth - depth < fuel →
      (formatF fuel E h v depth maxDepth seen compact).isSome := by
  intro fuel
  induction fuel with
  | zero => intro _ _ _ _ _ _ _ hf; omega
  | succ fuel ih =>
    intro E h v depth maxDepth seen compact hf
    cases v with
    | vnull => simp [formatF]
    | vundef => simp [formatF]
    | vbool b => simp [formatF]
    | vint n => simp [formatF]
    | vstr s => simp [formatF]
    | vsym s => simp [formatF]
    | vfun name => simp [formatF]
    | vref id =>
      simp only [formatF]
      by_cases hdep : maxDepth ≤ depth
      · simp only [if_pos hdep]; rfl
      · simp only [if_neg hdep]
        by_cases hseen : seen.contains id = true
        · simp only [if_pos hseen]; rfl
        · simp only [if_neg hseen]
          have hfuel2 : maxDepth - (depth + 1) < fuel := by omega
          have hgo : ∀ v s,
              (formatF fuel E h v (depth+1) maxDepth s compact).isSome :=
            fun v s => ih E h v (depth+1) maxDepth s compact hfuel2
          cases hh : h id with
          | harr elems =>
            by_cases he : elems.isEmpty = true
            · simp only [if_pos he]; rfl
            · simp only [if_neg he]
              obtain ⟨pr, hpr⟩ := Option.isSome_iff_exists.mp
                (fmtItems_isSome _ hgo elems (id :: seen))
              obtain ⟨items, seen2⟩ := pr
              simp only [hpr]
              split <;> rfl
          | hdate iso => rfl
          | herr name msg frame => rfl
          | hobj fields =>
            by_cases he : fields.isEmpty = true
            · simp only [if_pos he]; rfl
            · simp only [if_neg he]
              obtain ⟨pr, hpr⟩ := Option.isSome_iff_exists.mp
                (fmtItems_isSome _ hgo (fields.map (fun p => p.2)) (id :: seen))
              obtain ⟨vals, seen2⟩ := pr
              simp only [hpr]
              rfl

theorem fmtItems_congr {go go' : Value → List Nat → Option (String × List Nat)}
    (hgo : ∀ v s, go v s = go' v s) :
    ∀ (vs : List Value) (s : List Nat), fmtItems go vs s = fmtItems go' vs s := by
  intro vs
  induction vs with
  | nil => intro s; rfl
  | cons v vs ihv =>
    intro s
    simp only [fmtItems, hgo v s]
    cases hgp : go' v s with
    | none => simp only [hgp]
    | some pr =>
      obtain ⟨s1, seen1⟩ := pr
      simp only [hgp]
      rw [ihv seen1]

theorem formatF_congr :
    ∀ (f g : Nat) (E : Bool) (h : Heap) (v : Value) (depth maxDepth : Nat)
      (seen : List Nat) (compact : Bool),
      maxDepth - depth < f → maxDepth - depth < g →
      formatF f E h v depth maxDepth seen compact =
        formatF g E h v depth maxDepth seen compact := by
  intro f
  induction f with
  | zero => intro _ _ _ _ _ _ _ _ hf; omega
  | succ f ih =>
    intro g E h v depth maxDepth seen compact hf hg
    have hg1 : ∃ g', g = g' + 1 := by
      cases g with
      | zero => omega
      | succ g' => exact ⟨g', rfl⟩
    obtain ⟨g', rfl⟩ := hg1
    cases v with
    | vnull => rfl
    | vundef => rfl
    | vbool b => rfl
    | vint n => rfl
    | vstr s => rfl
    | vsym s => rfl
    | vfun name => rfl
    | vref id =>
      simp only [formatF]
      by_cases hdep : maxDepth ≤ depth
      · simp only [if_pos hdep]
      · simp only [if_neg hdep]
        by_cases hseen : seen.contains id = true
        · simp only [if_pos hseen]
        · simp only [if_neg hseen]
          have hrec : ∀ v s,
              formatF f E h v (depth+1) maxDepth s compact =
                formatF g' E h v (depth+1) maxDepth s compact :=
            fun v s => ih g' E h v (depth+1) maxDepth s compact (by omega) (by omega)
          cases hh : h id with
          | harr elems =>
            by_cases he : elems.isEmpty = true
            · simp only [if_pos he]
            · simp only [if_neg he]
              rw [fmtItems_congr hrec elems (id :: seen)]
          | hdate iso => rfl
          | herr name msg frame => rfl
          | hobj fields =>
            by_cases he : fields.isEmpty = true
            · simp only [if_pos he]
            · simp only [if_neg he]
              rw [fmtItems_congr hrec (fields.map (fun p => p.2)) (id :: seen)]

theorem formatF_eq_formatV {fuel : Nat} {E : Bool} {h : Heap} {v : Value}
    {depth maxDepth : Nat} {seen : List Nat} {compact : Bool}
    (hf : maxDepth - depth < fuel) :
    formatF fuel E h v depth maxDepth seen compact =
      some (formatV E h v depth maxDepth seen compact) := by
  unfold formatV
  rw [formatF_congr fuel (maxDepth - depth + 1) E h v depth maxDepth seen compact hf
    (by omega)]
  obtain ⟨pr, hpr⟩ := Option.isSome_iff_exists.mp
    (formatF_isSome (maxDepth - depth + 1) E h v depth maxDepth seen compact (by omega))
  rw [hpr]
  rfl

theorem fmtItems_formatSeq {fuel : Nat} {E : Bool} {h : Heap}
    {depth maxDepth : Nat} {compact : Bool} (hf : maxDepth - depth < fuel) :
    ∀ (vs : List Value) (seen : List Nat),
      fmtItems (fun v s => formatF fuel E h v depth maxDepth s compact) vs seen =
        some (formatSeq E h vs depth maxDepth seen compact) := by
  intro vs
  induction vs with
  | nil => intro seen; rfl
  | cons v vs ihv =>
    intro seen
    simp only [fmtItems]
    rw [formatF_eq_formatV hf]
    cases hfv : formatV E h v depth maxDepth seen compact with
    | mk s1 sn1 =>
      simp only [formatSeq, hfv]
      rw [ihv sn1]

/-- A composite value reached at depth >= maxDepth returns the dimmed
placeholder and leaves the seen set untouched. -/
theorem formatV_depthCap {E : Bool} {h : Heap} {id depth maxDepth : Nat}
    {seen : List Nat} {compact : Bool} (hd : maxDepth ≤ depth) :
    formatV E h (.vref id) depth maxDepth seen compact =
      (aDim E (aCyan E "[Object]"), seen) := by
  unfold formatV
  simp only [formatF, if_pos hd]
  rfl

/-- The array branch in terms of arrayRender. -/
theorem formatV_array {E : Bool} {h : Heap} {id : Nat} {elems : List Value}
    {depth maxDepth : Nat} {seen : List Nat} {compact : Bool}
    (hd : depth < maxDepth) (hs : seen.contains id = false)
    (hh : h id = .harr elems) (hne : elems.isEmpty = false) :
    formatV E h (.vref id) depth maxDepth seen compact =
      arrayRender E h elems depth maxDepth (id :: seen) compact := by
  unfold formatV
  simp only [formatF]
  simp only [if_neg (by omega : ¬ maxDepth ≤ depth)]
  simp only [hs, Bool.false_eq_true, if_false, hh]
  simp only [hne, Bool.false_eq_true, if_false]
  rw [fmtItems_formatSeq (by omega : maxDepth - (depth + 1) < maxDepth - depth)]
  cases hr : formatSeq E h elems (depth + 1) maxDepth (id :: seen) compact with
  | mk items seen2 =>
    simp only [arrayRender, hr]
    split <;> rfl

/-! ## Claim theorems -/

/-- C1: format is total and terminating on every input: with any fuel
exceeding the maxDepth - depth bound the fuelled formatter returns a
result (so the recursion depth is bounded and format never loops, also
on self-referential graphs and on values nested beyond maxDepth), and
on the cyclic object a = \x7b\x7d; a.self = a the output contains the
circular marker exactly once — once per traversed cyclic edge. -/
theorem c1_format_total_and_cycle_marker :
    (∀ (fuel : Nat) (E : Bool) (h : Heap) (v : Value) (depth maxDepth : Nat)
        (seen : List Nat) (compact : Bool), maxDepth - depth < fuel →
        (formatF fuel E h v depth maxDepth seen compact).isSome) ∧
    format false heapCyc (.vref 0) {} = "\x7b\n  self: [Circular]\n\x7d" ∧
    countSubstr (format false heapCyc (.vref 0) {}) "[Circular]" = 1 :=
  ⟨formatF_isSome, rfl, rfl⟩

theorem c1_format_total_and_cycle_marker_witness :
    (10 - 0 < 11 ∧ (formatF 11 false heapCyc (.vref 0) 0 10 [] false).isSome) ∧
    countSubstr (format false heapCyc (.vref 0) {}) "[Circular]" = 1 :=
  ⟨⟨by decide,
    c1_format_total_and_cycle_marker.1 11 false heapCyc (.vref 0) 0 10 [] false
      (by decide)⟩,
    c1_format_total_and_cycle_marker.2.2⟩

/-- C2: for every styled string s and visual offsets i <= j <=
visualLen s, stripping the visual slice equals slicing the stripped
string: stripAnsi (sliceWithAnsi s i j) = stripAnsi(s).slice(i, j). -/
theorem c2_strip_slice_round_trip (s : String) (i j : Nat)
    (hij : i ≤ j) (hj : j ≤ visualLen s) :
    stripAnsi (sliceWithAnsi s (i : Int) (some (j : Int))) =
      jsSlice (stripAnsi s) i j := by
  unfold sliceWithAnsi jsSlice stripAnsi
  simp only [Option.getD_some]
  have hm := sliceGo_strip s.data.length s.data 0 i j (le_refl _)
    (by positivity)
  have ht : ((j : Int) - 0).toNat = j := by omega
  have hd : ((i : Int) - 0).toNat = i := by omega
  rw [ht, hd] at hm
  exact congrArg String.mk hm

theorem c2_strip_slice_round_trip_witness :
    3 ≤ 8 ∧ 8 ≤ visualLen "\x1b[31mHello\x1b[0m World" ∧
    stripAnsi (sliceWithAnsi "\x1b[31mHello\x1b[0m World" (3 : Int) (some (8 : Int))) =
      jsSlice (stripAnsi "\x1b[31mHello\x1b[0m World") 3 8 :=
  ⟨by decide, by decide,
    c2_strip_slice_round_trip "\x1b[31mHello\x1b[0m World" 3 8 (by decide) (by decide)⟩

/-- C3: every composite (heap reference) value reached with depth >=
maxDepth yields the dimmed "[Object]" placeholder, without recursing
into children and without registering the value in the seen set;
composite dispatch happens only when depth < maxDepth. -/
theorem c3_depth_cap_placeholder (E : Bool) (h : Heap) (id depth maxDepth : Nat)
    (seen : List Nat) (compact : Bool) (hd : maxDepth ≤ depth) :
    formatV E h (.vref id) depth maxDepth seen compact =
      (aDim E (aCyan E "[Object]"), seen) :=
  formatV_depthCap hd

theorem c3_depth_cap_placeholder_witness :
    10 ≤ 10 ∧
    formatV false emptyHeap (.vref 0) 10 10 [] false =
      (aDim false (aCyan false "[Object]"), []) :=
  ⟨by decide, c3_depth_cap_placeholder false emptyHeap 0 10 10 [] false (by decide)⟩

/-- C5 counterexample: the single-line decision is not taken on visual
characters.  The visual single-line join of [1,2,3] is "[ 1, 2, 3 ]"
(11 characters, under the 60 threshold, and indeed the styling-disabled
render), yet with styling enabled format([1,2,3]) is multi-line,
because the source compares the raw length of the joined string, style
sequences included. -/
theorem c5_counterexample :
    format false heapArr123 (.vref 0) {} = "[ 1, 2, 3 ]" ∧
    ("[ 1, 2, 3 ]" : String).length = 11 ∧
    (format true heapArr123 (.vref 0) {}).data.contains '\n' = true :=
  ⟨rfl, rfl, by decide⟩

/-- C5 amended: an array renders inline exactly when the raw length
(style-control sequences included) of "[ e1, e2, ... ]" is below 60;
with styling disabled, raw and visual lengths agree and format([1,2,3])
is the single line "[ 1, 2, 3 ]"; with styling enabled the same value
renders multi-line, one element per line indented by depth+1 levels. -/
theorem c5_array_threshold_raw_length :
    (∀ (E : Bool) (h : Heap) (id : Nat) (elems : List Value)
        (depth maxDepth : Nat) (seen : List Nat) (compact : Bool),
      depth < maxDepth → seen.contains id = false →
      h id = .harr elems → elems.isEmpty = false →
      formatV E h (.vref id) depth maxDepth seen compact =
        arrayRender E h elems depth maxDepth (id :: seen) compact) ∧
    format false heapArr123 (.vref 0) {} = "[ 1, 2, 3 ]" ∧
    format true heapArr123 (.vref 0) {} =
      "[\n  \x1b[38;2;245;158;11m1\x1b[0m,\n  \x1b[38;2;245;158;11m2\x1b[0m,\n  \x1b[38;2;245;158;11m3\x1b[0m\n]" :=
  ⟨fun E h id elems depth maxDepth seen compact hd hs hh hne =>
    formatV_array hd hs hh hne, rfl, rfl⟩

theorem c5_array_threshold_raw_length_witness :
    (0 < 10 ∧ ([] : List Nat).contains 0 = false ∧
      heapArr123 0 = .harr [.vint 1, .vint 2, .vint 3] ∧
      ([Value.vint 1, .vint 2, .vint 3].isEmpty = false) ∧
      formatV true heapArr123 (.vref 0) 0 10 [] false =
        arrayRender true heapArr123 [.vint 1, .vint 2, .vint 3] 0 10 [0] false) :=
  ⟨by decide, by decide, rfl, by decide,
    c5_array_threshold_raw_length.1 true heapArr123 0 [.vint 1, .vint 2, .vint 3]
      0 10 [] false (by decide) (by decide) rfl (by decide)⟩

/-- C7 counterexample: the verb match is case sensitive: "get" is not
colorized as a verb but rendered through the generic string branch
(quoted, basic green), unlike "GET". -/
theorem c7_counterexample :
    format true emptyHeap (.vstr "get") {} = "\x1b[32m\"get\"\x1b[39m" ∧
    format true emptyHeap (.vstr "get") {} ≠ httpSafe true "GET" ∧
    format true emptyHeap (.vstr "GET") {} = httpSafe true "GET" :=
  ⟨rfl, by decide, rfl⟩

/-- C7 amended: the whole-string verb match is case sensitive: exactly
the uppercase tokens GET, POST, PUT, PATCH, DELETE, HEAD, OPTIONS are
colorized by verb class (read-only / mutating / destructive); any other
string, including lowercase verb spellings such as "get", takes the
generic string rendering (quoted green outside compact mode). -/
theorem c7_verb_match_case_sensitive (E : Bool) (h : Heap)
    (depth maxDepth : Nat) (seen : List Nat) (compact : Bool) :
    (∀ s, httpVerbList.contains s = true →
      formatV E h (.vstr s) depth maxDepth seen compact = (verbColor E s, seen)) ∧
    formatV E h (.vstr "get") depth maxDepth seen false =
      (aGreen E "\"get\"", seen) := by
  constructor
  · intro s hs
    have hmem : s = "GET" ∨ s = "POST" ∨ s = "PUT" ∨ s = "PATCH" ∨
        s = "DELETE" ∨ s = "HEAD" ∨ s = "OPTIONS" := by
      simpa [httpVerbList] using hs
    rcases hmem with rfl | rfl | rfl | rfl | rfl | rfl | rfl <;> rfl
  · rfl

theorem c7_verb_match_case_sensitive_witness :
    httpVerbList.contains "DELETE" = true ∧
    formatV true emptyHeap (.vstr "DELETE") 0 10 [] false =
      (verbColor true "DELETE", []) :=
  ⟨by decide,
    ((c7_verb_match_case_sensitive true emptyHeap 0 10 [] false).1 "DELETE" (by decide))⟩

/-- C9 counterexample: a zero-width slice is not always the empty
string: when the string opens with a control sequence, the sequence is
copied even though no visible character is. -/
theorem c9_counterexample :
    sliceWithAnsi "\x1b[31mA" 0 (some 0) = "\x1b[31m" ∧
    sliceWithAnsi "\x1b[31mA" 0 (some 0) ≠ "" :=
  ⟨rfl, by decide⟩

/-- C9 amended: zero-width slices (and generally end <= start) and
starts at or beyond the stripped length return a string of zero visual
length — stripping it gives the empty string — though it may still
carry control sequences; with the default end a start at or beyond the
stripped length strips to empty as well; malformed or partial control
sequences at a boundary are treated as ordinary characters and never
make the function fail. -/
theorem c9_degenerate_slices :
    (∀ (s : String) (i j : Int), 0 ≤ j → j ≤ i →
      stripAnsi (sliceWithAnsi s i (some j)) = "") ∧
    (∀ (s : String) (i : Int), (visualLen s : Int) ≤ i →
      stripAnsi (sliceWithAnsi s i none) = "") ∧
    sliceWithAnsi "\x1b[12" 1 (some 3) = "[1" := by
  refine ⟨?_, ?_, rfl⟩
  · intro s i j hj hji
    unfold sliceWithAnsi stripAnsi
    simp only [Option.getD_some]
    have hm := sliceGo_strip s.data.length s.data 0 i j (le_refl _) (by omega)
    rw [hm]
    have : ((stripAnsiL s.data).take (j - 0).toNat).drop (i - 0).toNat = [] := by
      apply List.drop_eq_nil_of_le
      have := List.length_take_le (j - 0).toNat (stripAnsiL s.data)
      omega
    rw [this]
  · intro s i hi
    unfold sliceWithAnsi stripAnsi
    simp only [Option.getD_none]
    have hgoal : ({ data := stripAnsiL s.data } : String).length =
        (stripAnsi s).length := rfl
    rw [hgoal]
    have hm := sliceGo_strip s.data.length s.data 0 i
      ((stripAnsi s).length : Int) (le_refl _) (by positivity)
    rw [hm]
    have hlen : (stripAnsi s).length = (stripAnsiL s.data).length := rfl
    have : ((stripAnsiL s.data).take (((stripAnsi s).length : Int) - 0).toNat).drop
        ((i : Int) - 0).toNat = [] := by
      apply List.drop_eq_nil_of_le
      have := List.length_take_le (((stripAnsi s).length : Int) - 0).toNat
        (stripAnsiL s.data)
      unfold visualLen at hi
      omega
    rw [this]

theorem c9_degenerate_slices_witness :
    ((0 : Int) ≤ 2 ∧ (2 : Int) ≤ 2 ∧
      stripAnsi (sliceWithAnsi "\x1b[31mAB\x1b[0m" 2 (some 2)) = "") ∧
    ((visualLen "AB\x1b[0m" : Int) ≤ 5 ∧
      stripAnsi (sliceWithAnsi "AB\x1b[0m" 5 none) = "") :=
  ⟨⟨by decide, by decide, c9_degenerate_slices.1 "\x1b[31mAB\x1b[0m" 2 2 (by decide) (by decide)⟩,
    ⟨by decide, c9_degenerate_slices.2.1 "AB\x1b[0m" 5 (by decide)⟩⟩

/-- C10: a depth limit of zero cannot be requested: option defaulting
maps the falsy value 0 to the default 10, so format with maxDepth 0
computes exactly format with maxDepth 10; depth 0 and compact false
likewise coincide with the absent-field defaults. -/
theorem c10_maxDepth_zero_defaults (E : Bool) (h : Heap) (v : Value) :
    format E h v { maxDepth := some 0 } = format E h v { maxDepth := some 10 } ∧
    format E h v { depth := some 0 } = format E h v {} ∧
    format E h v { compact := some false } = format E h v {} :=
  ⟨rfl, rfl, rfl⟩

/-- C8: a non-empty record set whose key union has 7 or more distinct
keys always renders in Card mode, whatever the terminal width: the
header-count test precedes and short-circuits every width test, and the
single decision selects the per-record card rendering applied uniformly
to all rows. -/
theorem c8_seven_keys_card_mode (E : Bool) (h : Heap) (termW : Nat)
    (data : List Value) (hne : data.isEmpty = false)
    (hk : 7 ≤ (headersOf h data).length) :
    createTable E h termW data = renderCards E h termW (rowsOf h data) := by
  unfold createTable
  simp only [hne, Bool.false_eq_true, if_false]
  exact if_pos (Or.inl (by omega : (headersOf h data).length > 6))

theorem c8_seven_keys_card_mode_witness :
    ([Value.vref 0].isEmpty = false) ∧
    7 ≤ (headersOf heap7 [.vref 0]).length ∧
    createTable false heap7 80 [.vref 0] =
      renderCards false heap7 80 (rowsOf heap7 [.vref 0]) :=
  ⟨by decide, by decide,
    c8_seven_keys_card_mode false heap7 80 [.vref 0] (by decide) (by decide)⟩

/-- C4 counterexample: a one-column table whose cell value is a nested
object renders in Grid mode (no card title appears), and the rendered
grid contains the styled depth-1 placeholder "[Object]" — produced by
the cell formatter at maxDepth 1 — but never the plain token "[Obj]",
which the claim says every nested composite collapses to. -/
theorem c4_counterexample :
    countSubstr (createTable false heapC 80 [.vref 0]) "Registro" = 0 ∧
    countSubstr (createTable false heapC 80 [.vref 0]) "[Object]" = 1 ∧
    countSubstr (createTable false heapC 80 [.vref 0]) "[Obj]" = 0 :=
  ⟨rfl, rfl, rfl⟩

/-- C4 amended: in Grid mode every cell is rendered through the value
formatter in compact mode with maxDepth = 1 (shown by the untruncated
data-cell equation); at that depth limit any composite reached at
depth >= 1 collapses to the styled placeholder "[Object]".  The plain
token "[Obj]" is used only in the width-measurement matrix, so a
composite-valued cell shows its depth-1 compact formatting with
"[Object]" for the next level, not "[Obj]". -/
theorem c4_grid_cells_compact_depth1 :
    (∀ (E : Bool) (h : Heap) (colW : Nat) (plain : String) (val : Value),
      ¬ plain.length > colW - 2 →
      drawDataCell E h colW plain val =
        " " ++ (formatV E h val 0 1 [] true).1 ++
          strRepeat " " (colW - plain.length - 1)) ∧
    (∀ (E : Bool) (h : Heap) (id depth : Nat) (seen : List Nat) (c : Bool),
      1 ≤ depth →
      formatV E h (.vref id) depth 1 seen c = (aDim E (aCyan E "[Object]"), seen)) ∧
    createTable false heapC 80 [.vref 0] =
      "╭───────╮\n│ a     │\n├───────┤\n│ \x7b\n  b: [Object]\n\x7d │\n╰───────╯" := by
  refine ⟨?_, ?_, rfl⟩
  · intro E h colW plain val hle
    unfold drawDataCell
    rw [if_neg hle]
  · intro E h id depth seen c hd
    exact formatV_depthCap hd

theorem c4_grid_cells_compact_depth1_witness :
    (¬ ("[Obj]" : String).length > 7 - 2 ∧
      drawDataCell false heapC 7 "[Obj]" (.vref 1) =
        " " ++ (formatV false heapC (.vref 1) 0 1 [] true).1 ++
          strRepeat " " (7 - ("[Obj]" : String).length - 1)) ∧
    (1 ≤ 1 ∧
      formatV false heapC (.vref 2) 1 1 [] true =
        (aDim false (aCyan false "[Object]"), [])) :=
  ⟨⟨by decide,
    c4_grid_cells_compact_depth1.1 false heapC 7 "[Obj]" (.vref 1) (by decide)⟩,
   ⟨by decide,
    c4_grid_cells_compact_depth1.2.1 false heapC 2 1 [] true (by decide)⟩⟩

/-! ## Width-bound lemmas for the wrapper -/

theorem strRepeat_foldl_data (k : Nat) :
    ∀ acc : String, (List.foldl (fun r s => r ++ s) acc (List.replicate k " ")).data =
      acc.data ++ List.replicate k ' ' := by
  induction k with
  | zero => intro acc; simp
  | succ k ih =>
    intro acc
    rw [List.replicate_succ, List.foldl_cons, ih]
    show (acc ++ " ").data ++ List.replicate k ' ' = acc.data ++ List.replicate (k + 1) ' '
    have h1 : (acc ++ " ").data = acc.data ++ [' '] := rfl
    rw [h1, List.append_assoc]
    congr 1

theorem strRepeat_space_data (k : Nat) :
    (strRepeat " " k).data = List.replicate k ' ' := by
  unfold strRepeat String.join
  rw [strRepeat_foldl_data k ""]
  rfl

/-- visualLen over a leading run of spaces. -/
theorem visualLen_spaces_append (k : Nat) (x : String) :
    visualLen (strRepeat " " k ++ x) = k + visualLen x := by
  unfold visualLen stripAnsi
  have h1 : (strRepeat " " k ++ x).data = List.replicate k ' ' ++ x.data := by
    show (strRepeat " " k).data ++ x.data = _
    rw [strRepeat_space_data]
  rw [h1, stripAnsiL_spaces_append]
  show (List.replicate k ' ' ++ stripAnsiL x.data).length = _
  simp [List.length_append]

/-- visualLen ignores a complete leading control sequence. -/
theorem visualLen_seq_append {ac : String}
    (hac : ansiMatch ac.data = some (ac.data, [])) (x : String) :
    visualLen (ac ++ x) = visualLen x := by
  unfold visualLen stripAnsi
  have h1 : (ac ++ x).data = ac.data ++ x.data := rfl
  rw [h1, stripAnsiL_seq_append hac]

/-- Re-applying the active color does not change the visual length. -/
theorem visualLen_reapply (line : String) (i0 first : Bool) (offset : Int)
    (chunk : String) :
    visualLen (reapplyColor line i0 first offset chunk) = visualLen chunk := by
  unfold reapplyColor
  by_cases h1 : (!first && i0) = true
  · rw [if_pos h1]
    by_cases h2 : (!strStartsWith (jsTrimStart (stripAnsi chunk)) "at ") = true
    · rw [if_pos h2]
      rcases getActiveAnsiAt_spec line offset with hac | hac
      · rw [hac]; simp
      · by_cases h3 : getActiveAnsiAt line offset ≠ ""
        · rw [if_pos h3]
          exact visualLen_seq_append hac chunk
        · rw [if_neg h3]
    · rw [if_neg h2]
  · rw [if_neg h1]

/-- Length of the stripped slice with an explicit end. -/
theorem visualLen_slice_le (line : String) (offset bp : Int)
    (h0 : 0 ≤ offset) (hob : offset ≤ bp) :
    (visualLen (sliceWithAnsi line offset (some bp)) : Int) ≤ bp - offset := by
  unfold visualLen sliceWithAnsi stripAnsi
  have hm := sliceGo_strip line.data.length line.data 0 offset bp (le_refl _)
    (by omega)
  show ((stripAnsiL (sliceGo line.data.length line.data 0 offset bp)).length : Int) ≤ _
  rw [hm, sub_zero, sub_zero]
  have h1 := List.length_take_le bp.toNat (stripAnsiL line.data)
  have h2 : (List.drop offset.toNat ((stripAnsiL line.data).take bp.toNat)).length =
      ((stripAnsiL line.data).take bp.toNat).length - offset.toNat :=
    List.length_drop _ _
  omega

/-- Length of the stripped slice with the default end. -/
theorem visualLen_slice_default_le (line : String) (offset : Int)
    (h0 : 0 ≤ offset) (hol : offset ≤ (visualLen line : Int)) :
    (visualLen (sliceWithAnsi line offset none) : Int) ≤
      (visualLen line : Int) - offset := by
  have hol2 : offset ≤ ((stripAnsiL line.data).length : Int) := hol
  unfold visualLen sliceWithAnsi stripAnsi
  simp only [Option.getD_none]
  have hm := sliceGo_strip line.data.length line.data 0 offset
    (((String.mk (stripAnsiL line.data)).length : Int)) (le_refl _) (by omega)
  show ((stripAnsiL (sliceGo line.data.length line.data 0 offset _)).length : Int) ≤ _
  rw [hm, sub_zero, sub_zero]
  set L := stripAnsiL line.data with hL
  have hmk : (String.mk L).length = L.length := rfl
  rw [hmk]
  have h3 : ((L.length : Int)).toNat = L.length := by omega
  rw [h3, List.take_length]
  have h2 : (List.drop offset.toNat L).length = L.length - offset.toNat :=
    List.length_drop _ _
  omega

theorem lastSpaceScan_le :
    ∀ (l : List Char) (i bound : Nat) (best : Int), best ≤ (bound : Int) →
      lastSpaceScan l i bound best ≤ (bound : Int) := by
  intro l
  induction l with
  | nil => intro i bound best hb; exact hb
  | cons c cs ih =>
    intro i bound best hb
    unfold lastSpaceScan
    by_cases hi : i > bound
    · rw [if_pos hi]; exact hb
    · rw [if_neg hi]
      apply ih
      by_cases hc : c = ' '
      · rw [if_pos hc]; exact_mod_cast Nat.le_of_not_lt hi
      · rw [if_neg hc]; exact hb

theorem lastSpaceLE_le (clean : List Char) (fromIdx : Int) (h : 0 ≤ fromIdx) :
    lastSpaceLE clean fromIdx ≤ fromIdx := by
  simp only [lastSpaceLE]
  rw [if_neg (by omega : ¬ fromIdx < 0)]
  have := lastSpaceScan_le clean 0 fromIdx.toNat (-1) (by omega)
  omega

theorem skipSpaces_ge (clean : List Char) (bp : Int) : bp ≤ skipSpaces clean bp := by
  unfold skipSpaces
  by_cases hb : bp < 0
  · rw [if_pos hb]
  · rw [if_neg hb]; omega

theorem visualLen_eq_data (line : String) :
    visualLen line = (stripAnsi line).data.length := rfl

theorem indent4_eq : INDENT4 = strRepeat " " 4 := rfl

theorem wrapChunk_bound_explicit (k : Nat) (line : String) (i0 first : Bool)
    (offset bp maxW : Int) (h0 : 0 ≤ offset) (hob : offset ≤ bp)
    (hbp : bp ≤ offset + (maxW - k)) :
    (visualLen (strRepeat " " k ++
      reapplyColor line i0 first offset (sliceWithAnsi line offset (some bp))) : Int)
      ≤ maxW := by
  rw [visualLen_spaces_append, visualLen_reapply]
  have := visualLen_slice_le line offset bp h0 hob
  push_cast
  omega

theorem wrapChunk_bound_default (k : Nat) (line : String) (i0 first : Bool)
    (offset maxW : Int) (h0 : 0 ≤ offset) (hol : offset ≤ (visualLen line : Int))
    (hrem : (visualLen line : Int) - offset ≤ maxW - k) :
    (visualLen (strRepeat " " k ++
      reapplyColor line i0 first offset (sliceWithAnsi line offset none)) : Int)
      ≤ maxW := by
  rw [visualLen_spaces_append, visualLen_reapply]
  have := visualLen_slice_default_le line offset h0 hol
  push_cast
  omega

/-- Every line pushed by the wrapping loop stays within maxW: the first
chunk of the first line has no indent and full width, every other chunk
carries a prefix of at most 4 spaces with the width reduced
accordingly.  Needs maxW >= 5 (so widths stay positive) and excludes
the object-content branch with its line-specific indent (isObj must be
false unless the loop runs on the first line, where that branch is not
taken). -/
theorem wrapLoop_bound :
    ∀ (fuel : Nat) (line : String) (i0 isObj : Bool) (maxW offset : Int)
      (first : Bool), 5 ≤ maxW → 0 ≤ offset → (i0 = true ∨ isObj = false) →
      ∀ l ∈ wrapLoop fuel line (stripAnsi line).data i0 isObj maxW offset first,
        (visualLen l : Int) ≤ maxW := by
  intro fuel
  induction fuel with
  | zero =>
    intro line i0 isObj maxW offset first _ _ _ l hl
    simp [wrapLoop] at hl
  | succ fuel ih =>
    intro line i0 isObj maxW offset first hW h0 hio l hl
    by_cases hoff : offset < (((stripAnsi line).data.length : Int))
    case neg =>
      simp only [wrapLoop, if_neg hoff] at hl
      simp at hl
    case pos =>
      have holen : offset ≤ ((visualLen line : Int)) := by
        rw [visualLen_eq_data]; omega
      cases i0 with
      | true =>
        cases first with
        | true =>
          simp only [wrapLoop, if_pos hoff, if_true] at hl
          by_cases hrem : ((stripAnsi line).data.length : Int) - offset ≤ maxW
          · rw [if_pos hrem] at hl
            simp only [List.mem_singleton] at hl
            subst hl
            exact wrapChunk_bound_default 0 line true true offset maxW h0 holen
              (by rw [visualLen_eq_data]; push_cast; omega)
          · rw [if_neg hrem] at hl
            rcases List.mem_cons.mp hl with rfl | hl'
            · by_cases hcond : offset <
                  lastSpaceLE (stripAnsi line).data (offset + maxW) ∧
                  5 * lastSpaceLE (stripAnsi line).data (offset + maxW) ≥
                    5 * offset + 3 * maxW
              · rw [if_pos hcond]
                refine wrapChunk_bound_explicit 0 line true true offset _ maxW h0
                  (le_of_lt hcond.1) ?_
                have := lastSpaceLE_le (stripAnsi line).data (offset + maxW)
                  (by omega)
                push_cast
                omega
              · rw [if_neg hcond]
                exact wrapChunk_bound_explicit 0 line true true offset _ maxW h0
                  (by omega) (by push_cast; omega)
            · have hbp0 : (0 : Int) ≤ (if offset <
                  lastSpaceLE (stripAnsi line).data (offset + maxW) ∧
                  5 * lastSpaceLE (stripAnsi line).data (offset + maxW) ≥
                    5 * offset + 3 * maxW then
                  lastSpaceLE (stripAnsi line).data (offset + maxW)
                else offset + maxW) := by
                split
                · omega
                · omega
              refine ih line true isObj maxW _ false hW ?_ (Or.inl rfl) l hl'
              calc (0 : Int) ≤ _ := hbp0
                _ ≤ _ := skipSpaces_ge _ _
        | false =>
          simp only [wrapLoop, if_pos hoff, if_true, Bool.false_eq_true, if_false] at hl
          by_cases hrem : ((stripAnsi line).data.length : Int) - offset ≤ maxW - 4
          · rw [if_pos hrem] at hl
            simp only [List.mem_singleton] at hl
            subst hl
            rw [indent4_eq]
            exact wrapChunk_bound_default 4 line true false offset maxW h0 holen
              (by rw [visualLen_eq_data]; push_cast; omega)
          · rw [if_neg hrem] at hl
            rcases List.mem_cons.mp hl with rfl | hl'
            · rw [indent4_eq]
              by_cases hcond : offset <
                  lastSpaceLE (stripAnsi line).data (offset + (maxW - 4)) ∧
                  5 * lastSpaceLE (stripAnsi line).data (offset + (maxW - 4)) ≥
                    5 * offset + 3 * (maxW - 4)
              · rw [if_pos hcond]
                refine wrapChunk_bound_explicit 4 line true false offset _ maxW h0
                  (le_of_lt hcond.1) ?_
                have := lastSpaceLE_le (stripAnsi line).data (offset + (maxW - 4))
                  (by omega)
                push_cast
                omega
              · rw [if_neg hcond]
                exact wrapChunk_bound_explicit 4 line true false offset _ maxW h0
                  (by omega) (by push_cast; omega)
            · have hbp0 : (0 : Int) ≤ (if offset <
                  lastSpaceLE (stripAnsi line).data (offset + (maxW - 4)) ∧
                  5 * lastSpaceLE (stripAnsi line).data (offset + (maxW - 4)) ≥
                    5 * offset + 3 * (maxW - 4) then
                  lastSpaceLE (stripAnsi line).data (offset + (maxW - 4))
                else offset + (maxW - 4)) := by
                split
                · omega
                · omega
              refine ih line true isObj maxW _ false hW ?_ (Or.inl rfl) l hl'
              calc (0 : Int) ≤ _ := hbp0
                _ ≤ _ := skipSpaces_ge _ _
      | false =>
        have hO : isObj = false := hio.resolve_left (by simp)
        subst hO
        simp only [wrapLoop, if_pos hoff, Bool.false_eq_true, if_false,
          Bool.not_false, if_true] at hl
        by_cases hrem : ((stripAnsi line).data.length : Int) - offset ≤ maxW - 4
        · rw [if_pos hrem] at hl
          simp only [List.mem_singleton] at hl
          subst hl
          rw [indent4_eq]
          exact wrapChunk_bound_default 4 line false first offset maxW h0 holen
            (by rw [visualLen_eq_data]; push_cast; omega)
        · rw [if_neg hrem] at hl
          rcases List.mem_cons.mp hl with rfl | hl'
          · rw [indent4_eq]
            by_cases hcond : offset <
                lastSpaceLE (stripAnsi line).data (offset + (maxW - 4)) ∧
                5 * lastSpaceLE (stripAnsi line).data (offset + (maxW - 4)) ≥
                  5 * offset + 3 * (maxW - 4)
            · rw [if_pos hcond]
              refine wrapChunk_bound_explicit 4 line false first offset _ maxW h0
                (le_of_lt hcond.1) ?_
              have := lastSpaceLE_le (stripAnsi line).data (offset + (maxW - 4))
                (by omega)
              push_cast
              omega
            · rw [if_neg hcond]
              exact wrapChunk_bound_explicit 4 line false first offset _ maxW h0
                (by omega) (by push_cast; omega)
          · have hbp0 : (0 : Int) ≤ (if offset <
                lastSpaceLE (stripAnsi line).data (offset + (maxW - 4)) ∧
                5 * lastSpaceLE (stripAnsi line).data (offset + (maxW - 4)) ≥
                  5 * offset + 3 * (maxW - 4) then
                lastSpaceLE (stripAnsi line).data (offset + (maxW - 4))
              else offset + (maxW - 4)) := by
              split
              · omega
              · omega
            refine ih line false false maxW _ false hW ?_ (Or.inr rfl) l hl'
            calc (0 : Int) ≤ _ := hbp0
              _ ≤ _ := skipSpaces_ge _ _

theorem splitNlGo_no_nl :
    ∀ (cs acc : List Char), cs.contains '\n' = false →
      splitNlGo cs acc = [String.mk (acc.reverse ++ cs)] := by
  intro cs
  induction cs with
  | nil => intro acc _; simp [splitNlGo]
  | cons c cs ih =>
    intro acc hc
    simp only [List.contains_cons, Bool.or_eq_false_iff] at hc
    have hcn : c ≠ '\n' := by
      intro h
      subst h
      simp at hc
    simp only [splitNlGo, if_neg hcn]
    rw [ih _ hc.2]
    congr 1
    simp

theorem jsSplitNewline_no_nl (s : String) (h : s.data.contains '\n' = false) :
    jsSplitNewline s = [s] := by
  unfold jsSplitNewline
  rw [splitNlGo_no_nl s.data [] h]
  rfl

/-- C6 counterexample: a fitting continuation line that is not object
content receives the fixed 4-space indent after the width check, so its
emitted width exceeds the budget: wrapping "a\nbbbbbbbbbb" at width 10
emits a 14-character line. -/
theorem c6_counterexample :
    wrapText "a\nbbbbbbbbbb" 10 = ["a", "    bbbbbbbbbb"] ∧
    visualLen "    bbbbbbbbbb" = 14 ∧ ¬ ((14 : Int) ≤ 10) :=
  ⟨rfl, rfl, by decide⟩

/-- C6 amended: for a single-line input (no newline) and a budget of at
least 5, every emitted line has visual length at most maxWidth; for a
multi-line input without object-indent content (no line stripping to
two leading spaces), every emitted line has visual length at most
maxWidth + 4, the excess being exactly the fixed 4-space continuation
indent added to lines after the first. -/
theorem wrapText_eq (text : String) (maxW : Int) :
    wrapText text maxW =
      ((jsSplitNewline text).enum.map (fun p =>
        if (((stripAnsi p.2).data.length : Int)) ≤ maxW then
          [if p.1 = 0 then p.2
           else if ((jsSplitNewline text).any
               (fun l => strStartsWith (stripAnsi l) "  ")) = true then p.2
           else INDENT4 ++ p.2]
        else wrapLoop ((stripAnsi p.2).data.length + 1) p.2 (stripAnsi p.2).data
          (p.1 == 0)
          ((jsSplitNewline text).any (fun l => strStartsWith (stripAnsi l) "  "))
          maxW 0 true)).join := rfl

theorem c6_wrap_width_bound :
    (∀ (text : String) (maxW : Int), 5 ≤ maxW →
      text.data.contains '\n' = false →
      ∀ l ∈ wrapText text maxW, (visualLen l : Int) ≤ maxW) ∧
    (∀ (text : String) (maxW : Int), 5 ≤ maxW →
      (jsSplitNewline text).any (fun l => strStartsWith (stripAnsi l) "  ") = false →
      ∀ l ∈ wrapText text maxW, (visualLen l : Int) ≤ maxW + 4) := by
  constructor
  · intro text maxW hW hnl l hl
    rw [wrapText_eq] at hl
    rw [jsSplitNewline_no_nl text hnl] at hl
    have henum : ([text] : List String).enum = [(0, text)] := rfl
    rw [henum] at hl
    simp only [List.mem_join, List.mem_map] at hl
    obtain ⟨lx, ⟨p, hp, hfx⟩, hml⟩ := hl
    simp only [List.mem_singleton] at hp
    subst hp
    subst hfx
    dsimp only at hml
    by_cases hfit : (((stripAnsi text).data.length : Int)) ≤ maxW
    · rw [if_pos hfit] at hml
      rw [if_pos (rfl : (0 : Nat) = 0)] at hml
      simp only [List.mem_singleton] at hml
      subst hml
      rw [visualLen_eq_data]
      omega
    · rw [if_neg hfit] at hml
      exact wrapLoop_bound _ text (0 == 0) _ maxW 0 true hW (by omega)
        (Or.inl rfl) l hml
  · intro text maxW hW hobj l hl
    rw [wrapText_eq] at hl
    rw [hobj] at hl
    simp only [List.mem_join, List.mem_map] at hl
    obtain ⟨lx, ⟨p, hp, hfx⟩, hml⟩ := hl
    obtain ⟨i, line⟩ := p
    subst hfx
    by_cases hfit : (((stripAnsi line).data.length : Int)) ≤ maxW
    · rw [if_pos hfit] at hml
      by_cases hi : i = 0
      · rw [if_pos hi] at hml
        simp only [List.mem_singleton] at hml
        subst hml
        rw [visualLen_eq_data]
        omega
      · rw [if_neg hi] at hml
        rw [if_neg (by simp : ¬ (false : Bool) = true)] at hml
        simp only [List.mem_singleton] at hml
        subst hml
        rw [indent4_eq, visualLen_spaces_append, visualLen_eq_data]
        push_cast
        omega
    · rw [if_neg hfit] at hml
      have := wrapLoop_bound _ line (i == 0) false maxW 0 true hW (by omega)
        (Or.inr rfl) l hml
      omega

theorem c6_wrap_width_bound_witness :
    ((5 : Int) ≤ 12 ∧
      ("hello world this is a longer line of text" : String).data.contains '\n' = false ∧
      "hello world" ∈ wrapText "hello world this is a longer line of text" 12 ∧
      (visualLen "hello world" : Int) ≤ 12) ∧
    ((5 : Int) ≤ 10 ∧
      (jsSplitNewline "a\nbcd").any (fun l => strStartsWith (stripAnsi l) "  ") = false ∧
      "    bcd" ∈ wrapText "a\nbcd" 10 ∧ (visualLen "    bcd" : Int) ≤ 10 + 4) :=
  ⟨⟨by decide, by decide, by decide,
    c6_wrap_width_bound.1 "hello world this is a longer line of text" 12
      (by decide) (by decide) "hello world" (by decide)⟩,
   ⟨by decide, by decide, by decide,
    c6_wrap_width_bound.2 "a\nbcd" 10 (by decide) (by decide) "    bcd" (by decide)⟩⟩
